import Mathlib

/-!
Shallow embedding of breezy's delta compressor (`breezy/bzr/diff-delta.c`)
and a verification of the specification claims about it.

Modelling conventions:
  * Byte buffers are total functions `Nat → Nat` together with an explicit
    size; every read goes through `byteAt` which truncates to 8 bits,
    mirroring the C `unsigned char` loads.
  * `unsigned int` arithmetic is modelled on `Nat` with an explicit
    `% 2^32` where the C can overflow (the rolling-hash accumulator and the
    target-size header store); quantities that stay far below `2^32` in
    every reachable state (match offsets/lengths, counters) are plain `Nat`,
    and the theorems that depend on the 32-bit width carry explicit size
    hypotheses.
  * Heap allocation never fails in the model, so the `DELTA_OUT_OF_MEMORY`
    paths are not represented; all other result codes are.
  * C loops whose termination is by pointer progress are written as
    structural recursion on an explicit fuel argument; every caller passes
    a fuel that is provably sufficient (each loop iteration consumes at
    least one unit of the measure the fuel bounds).
  * The packed index layout (bucket-start pointer array, live entries
    followed by `NULL` spare slots) is represented per bucket as the list
    of live entries plus the count of spare slots; the C code maintains the
    live-entries-first invariant, which this representation makes implicit.
-/

set_option maxHeartbeats 1000000

namespace DiffDelta

/-- `HASH_LIMIT`: maximum entry list length for one hash bucket. -/
def HASH_LIMIT : Nat := 64

/-- `RABIN_SHIFT` from diff-delta.c. -/
def RABIN_SHIFT : Nat := 23

/-- `RABIN_WINDOW` from diff-delta.c. -/
def RABIN_WINDOW : Nat := 16

/-- `EXTRA_NULLS`: spare slots appended per bucket when packing. -/
def EXTRA_NULLS : Nat := 4

/-- `MAX_OP_SIZE = 5 + 5 + 1 + RABIN_WINDOW + 7` from diff-delta.c. -/
def MAX_OP_SIZE : Nat := 5 + 5 + 1 + RABIN_WINDOW + 7

/-- The `T` table from diff-delta.c (256 32-bit constants). -/
def T : List Nat := [
    0x00000000, 0xab59b4d1, 0x56b369a2, 0xfdeadd73, 0x063f6795, 0xad66d344,
    0x508c0e37, 0xfbd5bae6, 0x0c7ecf2a, 0xa7277bfb, 0x5acda688, 0xf1941259,
    0x0a41a8bf, 0xa1181c6e, 0x5cf2c11d, 0xf7ab75cc, 0x18fd9e54, 0xb3a42a85,
    0x4e4ef7f6, 0xe5174327, 0x1ec2f9c1, 0xb59b4d10, 0x48719063, 0xe32824b2,
    0x1483517e, 0xbfdae5af, 0x423038dc, 0xe9698c0d, 0x12bc36eb, 0xb9e5823a,
    0x440f5f49, 0xef56eb98, 0x31fb3ca8, 0x9aa28879, 0x6748550a, 0xcc11e1db,
    0x37c45b3d, 0x9c9defec, 0x6177329f, 0xca2e864e, 0x3d85f382, 0x96dc4753,
    0x6b369a20, 0xc06f2ef1, 0x3bba9417, 0x90e320c6, 0x6d09fdb5, 0xc6504964,
    0x2906a2fc, 0x825f162d, 0x7fb5cb5e, 0xd4ec7f8f, 0x2f39c569, 0x846071b8,
    0x798aaccb, 0xd2d3181a, 0x25786dd6, 0x8e21d907, 0x73cb0474, 0xd892b0a5,
    0x23470a43, 0x881ebe92, 0x75f463e1, 0xdeadd730, 0x63f67950, 0xc8afcd81,
    0x354510f2, 0x9e1ca423, 0x65c91ec5, 0xce90aa14, 0x337a7767, 0x9823c3b6,
    0x6f88b67a, 0xc4d102ab, 0x393bdfd8, 0x92626b09, 0x69b7d1ef, 0xc2ee653e,
    0x3f04b84d, 0x945d0c9c, 0x7b0be704, 0xd05253d5, 0x2db88ea6, 0x86e13a77,
    0x7d348091, 0xd66d3440, 0x2b87e933, 0x80de5de2, 0x7775282e, 0xdc2c9cff,
    0x21c6418c, 0x8a9ff55d, 0x714a4fbb, 0xda13fb6a, 0x27f92619, 0x8ca092c8,
    0x520d45f8, 0xf954f129, 0x04be2c5a, 0xafe7988b, 0x5432226d, 0xff6b96bc,
    0x02814bcf, 0xa9d8ff1e, 0x5e738ad2, 0xf52a3e03, 0x08c0e370, 0xa39957a1,
    0x584ced47, 0xf3155996, 0x0eff84e5, 0xa5a63034, 0x4af0dbac, 0xe1a96f7d,
    0x1c43b20e, 0xb71a06df, 0x4ccfbc39, 0xe79608e8, 0x1a7cd59b, 0xb125614a,
    0x468e1486, 0xedd7a057, 0x103d7d24, 0xbb64c9f5, 0x40b17313, 0xebe8c7c2,
    0x16021ab1, 0xbd5bae60, 0x6cb54671, 0xc7ecf2a0, 0x3a062fd3, 0x915f9b02,
    0x6a8a21e4, 0xc1d39535, 0x3c394846, 0x9760fc97, 0x60cb895b, 0xcb923d8a,
    0x3678e0f9, 0x9d215428, 0x66f4eece, 0xcdad5a1f, 0x3047876c, 0x9b1e33bd,
    0x7448d825, 0xdf116cf4, 0x22fbb187, 0x89a20556, 0x7277bfb0, 0xd92e0b61,
    0x24c4d612, 0x8f9d62c3, 0x7836170f, 0xd36fa3de, 0x2e857ead, 0x85dcca7c,
    0x7e09709a, 0xd550c44b, 0x28ba1938, 0x83e3ade9, 0x5d4e7ad9, 0xf617ce08,
    0x0bfd137b, 0xa0a4a7aa, 0x5b711d4c, 0xf028a99d, 0x0dc274ee, 0xa69bc03f,
    0x5130b5f3, 0xfa690122, 0x0783dc51, 0xacda6880, 0x570fd266, 0xfc5666b7,
    0x01bcbbc4, 0xaae50f15, 0x45b3e48d, 0xeeea505c, 0x13008d2f, 0xb85939fe,
    0x438c8318, 0xe8d537c9, 0x153feaba, 0xbe665e6b, 0x49cd2ba7, 0xe2949f76,
    0x1f7e4205, 0xb427f6d4, 0x4ff24c32, 0xe4abf8e3, 0x19412590, 0xb2189141,
    0x0f433f21, 0xa41a8bf0, 0x59f05683, 0xf2a9e252, 0x097c58b4, 0xa225ec65,
    0x5fcf3116, 0xf49685c7, 0x033df00b, 0xa86444da, 0x558e99a9, 0xfed72d78,
    0x0502979e, 0xae5b234f, 0x53b1fe3c, 0xf8e84aed, 0x17bea175, 0xbce715a4,
    0x410dc8d7, 0xea547c06, 0x1181c6e0, 0xbad87231, 0x4732af42, 0xec6b1b93,
    0x1bc06e5f, 0xb099da8e, 0x4d7307fd, 0xe62ab32c, 0x1dff09ca, 0xb6a6bd1b,
    0x4b4c6068, 0xe015d4b9, 0x3eb80389, 0x95e1b758, 0x680b6a2b, 0xc352defa,
    0x3887641c, 0x93ded0cd, 0x6e340dbe, 0xc56db96f, 0x32c6cca3, 0x999f7872,
    0x6475a501, 0xcf2c11d0, 0x34f9ab36, 0x9fa01fe7, 0x624ac294, 0xc9137645,
    0x26459ddd, 0x8d1c290c, 0x70f6f47f, 0xdbaf40ae, 0x207afa48, 0x8b234e99,
    0x76c993ea, 0xdd90273b, 0x2a3b52f7, 0x8162e626, 0x7c883b55, 0xd7d18f84,
    0x2c043562, 0x875d81b3, 0x7ab75cc0, 0xd1eee811
]

/-- The `U` table from diff-delta.c (256 32-bit constants). -/
def U : List Nat := [
    0x00000000, 0x7eb5200d, 0x5633f4cb, 0x2886d4c6, 0x073e5d47, 0x798b7d4a,
    0x510da98c, 0x2fb88981, 0x0e7cba8e, 0x70c99a83, 0x584f4e45, 0x26fa6e48,
    0x0942e7c9, 0x77f7c7c4, 0x5f711302, 0x21c4330f, 0x1cf9751c, 0x624c5511,
    0x4aca81d7, 0x347fa1da, 0x1bc7285b, 0x65720856, 0x4df4dc90, 0x3341fc9d,
    0x1285cf92, 0x6c30ef9f, 0x44b63b59, 0x3a031b54, 0x15bb92d5, 0x6b0eb2d8,
    0x4388661e, 0x3d3d4613, 0x39f2ea38, 0x4747ca35, 0x6fc11ef3, 0x11743efe,
    0x3eccb77f, 0x40799772, 0x68ff43b4, 0x164a63b9, 0x378e50b6, 0x493b70bb,
    0x61bda47d, 0x1f088470, 0x30b00df1, 0x4e052dfc, 0x6683f93a, 0x1836d937,
    0x250b9f24, 0x5bbebf29, 0x73386bef, 0x0d8d4be2, 0x2235c263, 0x5c80e26e,
    0x740636a8, 0x0ab316a5, 0x2b7725aa, 0x55c205a7, 0x7d44d161, 0x03f1f16c,
    0x2c4978ed, 0x52fc58e0, 0x7a7a8c26, 0x04cfac2b, 0x73e5d470, 0x0d50f47d,
    0x25d620bb, 0x5b6300b6, 0x74db8937, 0x0a6ea93a, 0x22e87dfc, 0x5c5d5df1,
    0x7d996efe, 0x032c4ef3, 0x2baa9a35, 0x551fba38, 0x7aa733b9, 0x041213b4,
    0x2c94c772, 0x5221e77f, 0x6f1ca16c, 0x11a98161, 0x392f55a7, 0x479a75aa,
    0x6822fc2b, 0x1697dc26, 0x3e1108e0, 0x40a428ed, 0x61601be2, 0x1fd53bef,
    0x3753ef29, 0x49e6cf24, 0x665e46a5, 0x18eb66a8, 0x306db26e, 0x4ed89263,
    0x4a173e48, 0x34a21e45, 0x1c24ca83, 0x6291ea8e, 0x4d29630f, 0x339c4302,
    0x1b1a97c4, 0x65afb7c9, 0x446b84c6, 0x3adea4cb, 0x1258700d, 0x6ced5000,
    0x4355d981, 0x3de0f98c, 0x15662d4a, 0x6bd30d47, 0x56ee4b54, 0x285b6b59,
    0x00ddbf9f, 0x7e689f92, 0x51d01613, 0x2f65361e, 0x07e3e2d8, 0x7956c2d5,
    0x5892f1da, 0x2627d1d7, 0x0ea10511, 0x7014251c, 0x5facac9d, 0x21198c90,
    0x099f5856, 0x772a785b, 0x4c921c31, 0x32273c3c, 0x1aa1e8fa, 0x6414c8f7,
    0x4bac4176, 0x3519617b, 0x1d9fb5bd, 0x632a95b0, 0x42eea6bf, 0x3c5b86b2,
    0x14dd5274, 0x6a687279, 0x45d0fbf8, 0x3b65dbf5, 0x13e30f33, 0x6d562f3e,
    0x506b692d, 0x2ede4920, 0x06589de6, 0x78edbdeb, 0x5755346a, 0x29e01467,
    0x0166c0a1, 0x7fd3e0ac, 0x5e17d3a3, 0x20a2f3ae, 0x08242768, 0x76910765,
    0x59298ee4, 0x279caee9, 0x0f1a7a2f, 0x71af5a22, 0x7560f609, 0x0bd5d604,
    0x235302c2, 0x5de622cf, 0x725eab4e, 0x0ceb8b43, 0x246d5f85, 0x5ad87f88,
    0x7b1c4c87, 0x05a96c8a, 0x2d2fb84c, 0x539a9841, 0x7c2211c0, 0x029731cd,
    0x2a11e50b, 0x54a4c506, 0x69998315, 0x172ca318, 0x3faa77de, 0x411f57d3,
    0x6ea7de52, 0x1012fe5f, 0x38942a99, 0x46210a94, 0x67e5399b, 0x19501996,
    0x31d6cd50, 0x4f63ed5d, 0x60db64dc, 0x1e6e44d1, 0x36e89017, 0x485db01a,
    0x3f77c841, 0x41c2e84c, 0x69443c8a, 0x17f11c87, 0x38499506, 0x46fcb50b,
    0x6e7a61cd, 0x10cf41c0, 0x310b72cf, 0x4fbe52c2, 0x67388604, 0x198da609,
    0x36352f88, 0x48800f85, 0x6006db43, 0x1eb3fb4e, 0x238ebd5d, 0x5d3b9d50,
    0x75bd4996, 0x0b08699b, 0x24b0e01a, 0x5a05c017, 0x728314d1, 0x0c3634dc,
    0x2df207d3, 0x534727de, 0x7bc1f318, 0x0574d315, 0x2acc5a94, 0x54797a99,
    0x7cffae5f, 0x024a8e52, 0x06852279, 0x78300274, 0x50b6d6b2, 0x2e03f6bf,
    0x01bb7f3e, 0x7f0e5f33, 0x57888bf5, 0x293dabf8, 0x08f998f7, 0x764cb8fa,
    0x5eca6c3c, 0x207f4c31, 0x0fc7c5b0, 0x7172e5bd, 0x59f4317b, 0x27411176,
    0x1a7c5765, 0x64c97768, 0x4c4fa3ae, 0x32fa83a3, 0x1d420a22, 0x63f72a2f,
    0x4b71fee9, 0x35c4dee4, 0x1400edeb, 0x6ab5cde6, 0x42331920, 0x3c86392d,
    0x133eb0ac, 0x6d8b90a1, 0x450d4467, 0x3bb8646a
]

/-- An `unsigned char` load from a byte buffer modelled as `Nat → Nat`. -/
def byteAt (f : Nat → Nat) (i : Nat) : Nat := f i % 256

/-- One step of the Rabin rolling hash:
`val = ((val << 8) | b) ^ T[val >> RABIN_SHIFT]` on a 32-bit accumulator. -/
def rabinStep (v b : Nat) : Nat :=
  (((v <<< 8) ||| b) ^^^ T.getD (v >>> RABIN_SHIFT) 0) % 4294967296

/-- Fold `rabinStep` over `cnt` consecutive bytes of `f` starting at `base`,
from accumulator 0 (the common shape of the hash loops in diff-delta.c). -/
def hashFrom (f : Nat → Nat) (base cnt : Nat) : Nat :=
  (List.range cnt).foldl (fun v k => rabinStep v (byteAt f (base + k))) 0

/-- The fingerprint of the window `data[1] .. data[RABIN_WINDOW]` when `data`
sits at offset `off` (the loop `for (i = 1; i <= RABIN_WINDOW; i++)`). -/
def windowHash (f : Nat → Nat) (off : Nat) : Nat :=
  hashFrom f (off + 1) RABIN_WINDOW

/-- `struct source_info`: a byte buffer, its size, and its aggregate offset in
the logical concatenation of all indexed sources. -/
structure SourceInfo where
  buf : Nat → Nat
  size : Nat
  aggOffset : Nat

/-- `struct index_entry`: pointer into a source (as an offset), owning source,
and fingerprint value. -/
structure IndexEntry where
  ptrOff : Nat
  src : SourceInfo
  val : Nat

/-- `struct delta_index`.  A bucket is the list of its live entries (the C
keeps live entries first, then `NULL` spare slots: `spare i` is the number of
those spare slots of bucket `i`).  `memsize`/`last_entry` are bookkeeping for
`sizeof_delta_index`/`get_entry_summary` only and are not represented. -/
structure DeltaIndex where
  hashMask : Nat
  numEntries : Nat
  buckets : Nat → List IndexEntry
  spare : Nat → Nat
  lastSrc : Option SourceInfo

/-- The result codes of delta.h that denote failure (`DELTA_OK` is represented
by `Except.ok`; `DELTA_OUT_OF_MEMORY` cannot occur in the model). -/
inductive DeltaError where
  | outOfMemory
  | indexNeeded
  | sourceEmpty
  | sourceBad
  | bufferEmpty
  | sizeTooBig
deriving DecidableEq, Repr

/-! ## Index construction: `create_delta_index` -/

/-- The loop `for (i = 4; (1u << i) < hsize && i < 31; i++)` choosing the
bucket-count exponent; the fuel 27 covers every iteration from 4 to 31. -/
def hsizeExpGo : Nat → Nat → Nat → Nat
  | 0, i, _ => i
  | fuel+1, i, h => if 2 ^ i < h ∧ i < 31 then hsizeExpGo fuel (i + 1) h else i

/-- Exponent of the chosen bucket count for a requested size `h`. -/
def hsizeExp (h : Nat) : Nat := hsizeExpGo 27 4 h

/-- State of the index-population loop of `create_delta_index`: per-bucket
entry lists (in linked-list order: lowest source offset first), per-bucket
counts, the previous fingerprint, and the running total entry count. -/
structure BuildState where
  hash : Nat → List IndexEntry
  hashCount : Nat → Nat
  prevVal : Nat
  total : Nat

/-- `entry[-1].entry.ptr = data + RABIN_WINDOW`: rewrite the pointer of the
most recently inserted entry (the head of its bucket list). -/
def setHeadPtr (l : List IndexEntry) (p : Nat) : List IndexEntry :=
  match l with
  | [] => []
  | e :: r => { e with ptrOff := p } :: r

/-- The population loop of `create_delta_index`: walk `count` windows from
offset `off` downward in steps of `stride`, hashing each window and either
deduplicating against the previous fingerprint or pushing a new entry onto
its bucket.  Structural recursion on the remaining window count. -/
def buildLoop (src : SourceInfo) (stride hmask : Nat) :
    Nat → Nat → BuildState → BuildState
  | 0, _, st => st
  | count+1, off, st =>
    let val := windowHash src.buf off
    let st1 :=
      if val = st.prevVal then
        -- keep the lowest of consecutive identical blocks
        let b := st.prevVal &&& hmask
        { st with hash := fun j => if j = b then setHeadPtr (st.hash b) (off + RABIN_WINDOW)
                                   else st.hash j,
                  total := st.total - 1 }
      else
        let b := val &&& hmask
        { hash := fun j => if j = b then
                    ⟨off + RABIN_WINDOW, src, val⟩ :: st.hash b else st.hash j,
          hashCount := fun j => if j = b then st.hashCount b + 1 else st.hashCount j,
          prevVal := val,
          total := st.total }
    buildLoop src stride hmask count (off - stride) st1

/-! ## `limit_hash_buckets` -/

/-- The inner culling loop
`do { entry = entry->next; acc -= HASH_LIMIT; } while (acc > 0);`
returning the final accumulator and the remainder of the list after the
removed nodes.  Fuel `acc.toNat` always suffices (each step subtracts 64). -/
def cullInner : Nat → Int → List IndexEntry → Int × List IndexEntry
  | 0, acc, l => (acc, l)
  | fuel+1, acc, l =>
    let acc1 := acc - (HASH_LIMIT : Int)
    let l1 := l.tail
    if 0 < acc1 then cullInner fuel acc1 l1 else (acc1, l1)

/-- The outer culling loop of `limit_hash_buckets` over one bucket:
`d = hash_count[i] - HASH_LIMIT` is added to the accumulator for every kept
entry, and whenever the accumulator goes positive the inner loop unlinks
nodes until it drops to zero or below.  Fuel: the bucket length. -/
def cullOuter (d : Int) : Nat → Int → List IndexEntry → List IndexEntry
  | 0, _, _ => []
  | fuel+1, acc, l =>
    match l with
    | [] => []
    | e :: rest =>
      let acc1 := acc + d
      if 0 < acc1 then
        let r := cullInner acc1.toNat acc1 rest
        e :: cullOuter d fuel r.1 r.2
      else
        e :: cullOuter d fuel acc1 rest

/-- The bucket loop of `limit_hash_buckets`: buckets with at most
`HASH_LIMIT` live entries are untouched; larger ones are culled to exactly
`HASH_LIMIT` and the total is decreased by the surplus before culling. -/
def limitGo (hashCount : Nat → Nat) :
    Nat → Nat → (Nat → List IndexEntry) → Nat → ((Nat → List IndexEntry) × Nat)
  | 0, _, h, e => (h, e)
  | n+1, i, h, e =>
    if hashCount i ≤ HASH_LIMIT then
      limitGo hashCount n (i + 1) h e
    else
      limitGo hashCount n (i + 1)
        (fun j => if j = i then
            cullOuter ((hashCount i : Int) - (HASH_LIMIT : Int)) (h i).length 0 (h i)
          else h j)
        (e - (hashCount i - HASH_LIMIT))

/-- `limit_hash_buckets`: cull every over-full bucket down to `HASH_LIMIT`
entries and return the updated buckets and entry total. -/
def limit_hash_buckets (hash : Nat → List IndexEntry) (hashCount : Nat → Nat)
    (hsize entries : Nat) : (Nat → List IndexEntry) × Nat :=
  limitGo hashCount hsize 0 hash entries

/-! ## `pack_delta_index` -/

/-- `pack_delta_index`.  The fit-in-place path succeeds when the old index
exists, has the same mask, and every bucket has enough spare (`NULL`) slots
for its new entries; the C discovers a failing bucket part-way through and
falls back to reallocation, but the entries it already moved keep both their
bucket and their position relative to the remaining new entries, so the
realloc output below is the same either way.  The realloc path re-buckets
the old entries (earlier source first) and appends `EXTRA_NULLS` spare slots
per bucket.  `last_src` is left for the caller to set, as in the C. -/
def pack_delta_index (hash : Nat → List IndexEntry) (hsize num_entries : Nat)
    (old : Option DeltaIndex) : DeltaIndex :=
  let hmask := hsize - 1
  let realloc : DeltaIndex :=
    { hashMask := hmask,
      numEntries := num_entries,
      buckets := fun i =>
        if i < hsize then
          (match old with
           | some o => (o.buckets (i &&& o.hashMask)).filter
               (fun e => e.val &&& hmask = i)
           | none => []) ++ hash i
        else [],
      spare := fun i => if i < hsize then EXTRA_NULLS else 0,
      lastSrc := none }
  match old with
  | some o =>
    if o.hashMask = hmask ∧
        ∀ i < hsize, (hash i).length ≤ o.spare i then
      { o with
        numEntries := o.numEntries +
          (List.range hsize).foldl (fun a i => a + (hash i).length) 0,
        buckets := fun i => if i < hsize then o.buckets i ++ hash i else o.buckets i,
        spare := fun i => if i < hsize then o.spare i - (hash i).length else o.spare i }
    else realloc
  | none => realloc

/-- The entry count and stride chosen by `create_delta_index`:
`RABIN_WINDOW`-stride, one entry per window, unless a positive
`max_bytes_to_index` caps the entry count (then the stride widens). -/
def effEntriesStride (size : Nat) (max_bytes_to_index : Int) : Nat × Nat :=
  let num_entries0 := (size - 1) / RABIN_WINDOW
  if 0 < max_bytes_to_index then
    let max_entries := (max_bytes_to_index / (RABIN_WINDOW : Int)).toNat
    if max_entries < num_entries0 then
      (max_entries, (size - 1) / max_entries)
    else (num_entries0, RABIN_WINDOW)
  else (num_entries0, RABIN_WINDOW)

/-- The (mask, bucket count) chosen by `create_delta_index` for a total
entry count: a power of two from `hsizeExp`, or the old mask if larger. -/
def chooseHm (total : Nat) (old : Option DeltaIndex) : Nat × Nat :=
  let hsize0 := 2 ^ hsizeExp (total / 4)
  match old with
  | some o => if hsize0 - 1 < o.hashMask then (o.hashMask, o.hashMask + 1)
              else (hsize0 - 1, hsize0)
  | none => (hsize0 - 1, hsize0)

/-- The success path of `create_delta_index`: populate, limit, pack. -/
def buildIndexResult (src : SourceInfo) (old : Option DeltaIndex)
    (max_bytes_to_index : Int) : DeltaIndex :=
  let p := effEntriesStride src.size max_bytes_to_index
  let num_entries := p.1
  let stride := p.2
  let total0 := num_entries + (match old with | some o => o.numEntries | none => 0)
  let hm := chooseHm total0 old
  let hmask := hm.1
  let hsize := hm.2
  let st := buildLoop src stride hmask num_entries
    (num_entries * stride - RABIN_WINDOW)
    ⟨fun _ => [], fun _ => 0, 4294967295, total0⟩
  let lim := limit_hash_buckets st.hash st.hashCount hsize st.total
  let idx := pack_delta_index lim.1 hsize lim.2 old
  { idx with lastSrc := some src }

/-- `create_delta_index`.  `max_bytes_to_index` is the C `int` argument;
non-positive values disable the cap. -/
def create_delta_index (src : SourceInfo) (old : Option DeltaIndex)
    (max_bytes_to_index : Int) : Except DeltaError DeltaIndex :=
  if src.size = 0 then .error .sourceEmpty
  else .ok (buildIndexResult src old max_bytes_to_index)

/-! ## `create_index_from_old_and_new_entries` -/

/-- `_put_entries_into_hash`: distribute the entries (which are sorted by
position) over `hsize` buckets.  The C walks the array backwards pushing at
each bucket head, so each bucket holds its entries in original order. -/
def putEntriesIntoHash (entries : List IndexEntry) (hsize : Nat) :
    Nat → List IndexEntry :=
  fun i => entries.filter (fun e => e.val &&& (hsize - 1) = i)

/-- `create_index_from_old_and_new_entries`: allocate a fresh index sized for
all old and new entries, re-bucket the old entries first (preserving their
order), then the new ones, with `EXTRA_NULLS` spare slots per bucket. -/
def create_index_from_old_and_new_entries (old : DeltaIndex)
    (entries : List IndexEntry) : DeltaIndex :=
  let total := entries.length + old.numEntries
  let hsize1 := 2 ^ hsizeExp (total / 4)
  let hsize := if hsize1 < old.hashMask then old.hashMask + 1 else hsize1
  let hmask := hsize - 1
  let mini := putEntriesIntoHash entries hsize
  { hashMask := hmask,
    numEntries := total,
    buckets := fun i =>
      if i < hsize then
        (if hmask = old.hashMask then old.buckets i
         else (old.buckets (i &&& old.hashMask)).filter
             (fun e => e.val &&& hmask = i)) ++ mini i
      else [],
    spare := fun i => if i < hsize then EXTRA_NULLS else 0,
    lastSrc := old.lastSrc }

/-! ## `create_delta_index_from_delta` -/

/-- Modelled from the spec: `get_delta_hdr_size` (declared in delta.h, which
is not part of the analysed sources) skips the target-length header, a
little-endian base-128 varint whose bytes all have the top bit set except
the last; it only moves the scan position.  Returns the position after the
header; fuel bounds the byte count. -/
def get_delta_hdr_size (buf : Nat → Nat) (top : Nat) : Nat → Nat → Nat
  | 0, pos => pos
  | fuel+1, pos =>
    if pos < top then
      if 128 ≤ byteAt buf pos then get_delta_hdr_size buf top fuel (pos + 1)
      else pos + 1
    else pos

/-- The window-indexing loop inside an insert instruction
(`for (; cmd > RABIN_WINDOW + 3; cmd -= RABIN_WINDOW, data += RABIN_WINDOW)`).
Returns the remaining count, position, previous fingerprint and entries; a
new entry that overflows `maxN` stops the loop with the counters unstepped,
as the C `break` does.  Fuel: `cmd`. -/
def fromDeltaWindows (src : SourceInfo) (maxN : Nat) :
    Nat → Nat → Nat → Nat → List IndexEntry → (Nat × Nat × Nat × List IndexEntry)
  | 0, cmd, pos, prevVal, es => (cmd, pos, prevVal, es)
  | fuel+1, cmd, pos, prevVal, es =>
    if RABIN_WINDOW + 3 < cmd then
      let val := windowHash src.buf pos
      if val ≠ prevVal then
        let es1 := es ++ [⟨pos + RABIN_WINDOW, src, val⟩]
        if maxN < es1.length then (cmd, pos, val, es1)
        else fromDeltaWindows src maxN fuel (cmd - RABIN_WINDOW) (pos + RABIN_WINDOW) val es1
      else fromDeltaWindows src maxN fuel (cmd - RABIN_WINDOW) (pos + RABIN_WINDOW) prevVal es
    else (cmd, pos, prevVal, es)

/-- The number of operand bytes a copy command byte announces, as skipped by
the delta scan of `create_delta_index_from_delta`. -/
def copySkip (cmd : Nat) : Nat :=
  (if cmd &&& 0x01 ≠ 0 then 1 else 0) + (if cmd &&& 0x02 ≠ 0 then 1 else 0) +
  (if cmd &&& 0x04 ≠ 0 then 1 else 0) + (if cmd &&& 0x08 ≠ 0 then 1 else 0) +
  (if cmd &&& 0x10 ≠ 0 then 1 else 0) + (if cmd &&& 0x20 ≠ 0 then 1 else 0) +
  (if cmd &&& 0x40 ≠ 0 then 1 else 0)

/-- The opcode scan of `create_delta_index_from_delta`: walk the delta,
skipping copy instructions, indexing the long-enough tails of insert
instructions, and stopping (like the C `break`) on a zero opcode byte or an
insert that overruns the buffer.  Returns the final scan position and the
collected entries.  Fuel: the buffer size. -/
def fromDeltaScan (src : SourceInfo) (maxN : Nat) :
    Nat → Nat → Nat → List IndexEntry → (Nat × List IndexEntry)
  | 0, pos, _, es => (pos, es)
  | fuel+1, pos, prevVal, es =>
    if pos < src.size then
      let cmd := byteAt src.buf pos
      let p1 := pos + 1
      if 128 ≤ cmd then
        -- copy instruction, skip its operand bytes
        fromDeltaScan src maxN fuel (p1 + copySkip cmd) prevVal es
      else if cmd ≠ 0 then
        if src.size < p1 + cmd then (p1, es)  -- invalid insert: break
        else
          let r := fromDeltaWindows src maxN cmd cmd p1 prevVal es
          fromDeltaScan src maxN fuel (r.2.1 + r.1) r.2.2.1 r.2.2.2
      else (p1, es)  -- cmd == 0 is reserved: break
    else (pos, es)

/-- The hole-filling loop of `create_delta_index_from_delta`: append each new
entry into a spare slot of its bucket, stopping at the first bucket with no
room; returns the updated index and the entries not inserted. -/
def holeFill : DeltaIndex → List IndexEntry → (DeltaIndex × List IndexEntry)
  | idx, [] => (idx, [])
  | idx, e :: rest =>
    let b := e.val &&& idx.hashMask
    if 0 < idx.spare b then
      holeFill
        { idx with
          buckets := fun j => if j = b then idx.buckets b ++ [e] else idx.buckets j,
          spare := fun j => if j = b then idx.spare b - 1 else idx.spare j,
          numEntries := idx.numEntries + 1 } rest
    else (idx, e :: rest)

/-- `create_delta_index_from_delta`. -/
def create_delta_index_from_delta (src : SourceInfo) (old : Option DeltaIndex) :
    Except DeltaError DeltaIndex :=
  match old with
  | none => .error .indexNeeded
  | some oldIdx =>
    if src.size = 0 then .error .sourceEmpty
    else
      let maxN := (src.size - 1) / RABIN_WINDOW
      if maxN = 0 then .ok oldIdx
      else
        let start := get_delta_hdr_size src.buf src.size src.size 0
        let scan := fromDeltaScan src maxN src.size start 4294967295 []
        if scan.1 ≠ src.size then .error .sourceBad
        else if scan.2.length = 0 then .ok oldIdx
        else
          let old1 := { oldIdx with lastSrc := some src }
          let hf := holeFill old1 scan.2
          if hf.2.length = 0 then .ok hf.1
          else .ok (create_index_from_old_and_new_entries hf.1 hf.2)

/-! ## The encoder: `create_delta` -/

/-- Little-endian base-128 varint encoding of the target size
(`while (i >= 0x80) { out[outpos++] = i | 0x80; i >>= 7; }`); the fuel 32
covers any 32-bit value, which is all the C `unsigned int i` can hold. -/
def varintEnc : Nat → Nat → List Nat
  | 0, i => [i % 256]
  | fuel+1, i => if 128 ≤ i then (i % 128 + 128) :: varintEnc fuel (i >>> 7) else [i % 256]

/-- Length of the common prefix of `f` at `i` and `g` at `j`, up to `n`
bytes: the verification loop `while (ref_size-- && *src++ == *ref) ref++`. -/
def commonLen (f g : Nat → Nat) : Nat → Nat → Nat → Nat
  | _, _, 0 => 0
  | i, j, n+1 =>
    if byteAt f i = byteAt g j then commonLen f g (i + 1) (j + 1) n + 1 else 0

/-- The candidate scan over one hash bucket: for every entry with an equal
fingerprint, verify the match byte-by-byte and keep the longest; stop early
when an entry cannot beat the current best (`ref_size <= msize`) or when a
match of at least 4096 bytes is found. -/
def scanBucket (trg : Nat → Nat) (top pos val : Nat) :
    List IndexEntry → Nat → Nat → Option SourceInfo → (Nat × Nat × Option SourceInfo)
  | [], msize, moff, msrc => (msize, moff, msrc)
  | e :: rest, msize, moff, msrc =>
    if e.val ≠ val then scanBucket trg top pos val rest msize moff msrc
    else
      let refSize := min (e.src.size - e.ptrOff) (top - pos)
      if refSize ≤ msize then (msize, moff, msrc)
      else
        let n := commonLen e.src.buf trg e.ptrOff pos refSize
        if msize < n then
          if 4096 ≤ n then (n, e.ptrOff, some e.src)
          else scanBucket trg top pos val rest n e.ptrOff (some e.src)
        else scanBucket trg top pos val rest msize moff msrc

/-- Buffer of the recorded match source (`msource->buf`; only dereferenced
when a match was recorded, so the `none` default is never reached). -/
def srcBufOf : Option SourceInfo → (Nat → Nat)
  | some s => s.buf
  | none => fun _ => 0

/-- Aggregate offset of the recorded match source. -/
def aggOf : Option SourceInfo → Nat
  | some s => s.aggOffset
  | none => 0

/-- Size of the recorded match source. -/
def sizeOf' : Option SourceInfo → Nat
  | some s => s.size
  | none => 0

/-- The steal-back loop
`while (moff && ref_data[moff-1] == data[-1]) { ... if (--inscnt) continue; ... break; }`
over the pending insert run, given reversed (last byte first).  Returns the
updated `moff`, `msize`, scan position, and the remaining reversed run. -/
def stealGo (srcBuf trg : Nat → Nat) :
    List Nat → Nat → Nat → Nat → (Nat × Nat × Nat × List Nat)
  | [], moff, msize, pos => (moff, msize, pos, [])
  | b :: rest, moff, msize, pos =>
    if moff ≠ 0 ∧ byteAt srcBuf (moff - 1) = byteAt trg (pos - 1) then
      stealGo srcBuf trg rest (moff - 1) (msize + 1) (pos - 1)
    else (moff, msize, pos, b :: rest)

/-- Byte encoding of one copy opcode, exactly as emitted by `create_delta`:
a command byte with flag bits for each non-zero little-endian byte of the
(aggregate) offset and of the length, followed by those bytes. -/
def encCopy (moff msize : Nat) : List Nat :=
  let p1 : List Nat × Nat :=
    if moff &&& 0x000000ff ≠ 0 then ([moff % 256], 0x01) else ([], 0)
  let p2 : List Nat × Nat :=
    if moff &&& 0x0000ff00 ≠ 0 then ([(moff >>> 8) % 256], 0x02) else ([], 0)
  let p3 : List Nat × Nat :=
    if moff &&& 0x00ff0000 ≠ 0 then ([(moff >>> 16) % 256], 0x04) else ([], 0)
  let p4 : List Nat × Nat :=
    if moff &&& 0xff000000 ≠ 0 then ([(moff >>> 24) % 256], 0x08) else ([], 0)
  let p5 : List Nat × Nat :=
    if msize &&& 0x00ff ≠ 0 then ([msize % 256], 0x10) else ([], 0)
  let p6 : List Nat × Nat :=
    if msize &&& 0xff00 ≠ 0 then ([(msize >>> 8) % 256], 0x20) else ([], 0)
  (0x80 ||| p1.2 ||| p2.2 ||| p3.2 ||| p4.2 ||| p5.2 ||| p6.2) ::
    (p1.1 ++ p2.1 ++ p3.1 ++ p4.1 ++ p5.1 ++ p6.1)

/-- Loop state of `create_delta`: scan position, rolling hash, current best
match (`msize`, `moff`, `msource`), the finalized output bytes, the pending
insert run (its literal bytes; the C keeps them in the output buffer after a
reserved count slot, back-patched on flush), and the output capacity. -/
structure EncState where
  pos : Nat
  val : Nat
  msize : Nat
  moff : Nat
  msource : Option SourceInfo
  out : List Nat
  pending : List Nat
  outsize : Nat

/-- The C `outpos`: finalized bytes plus, if an insert run is pending, its
reserved count slot and literal bytes. -/
def outPos (st : EncState) : Nat :=
  st.out.length + (if st.pending.isEmpty then 0 else st.pending.length + 1)

/-- Append the pending insert run to the output as a complete insert opcode
(count byte back-patched, as the C flush does); an empty run appends nothing. -/
def flushPending (out pending : List Nat) : List Nat :=
  if pending.isEmpty then out else out ++ pending.length :: pending

/-- End-of-iteration output-buffer bookkeeping: grow the capacity ×1.5 when
within `MAX_OP_SIZE` of it, clamp to `max_size + MAX_OP_SIZE + 1`, and abort
with `DELTA_SIZE_TOO_BIG` once the output exceeds `max_size` (the C breaks
out of the loop and then returns that code; the model returns it directly). -/
def growthCheck (max_size : Nat) (st : EncState) : Except DeltaError EncState :=
  if st.outsize - MAX_OP_SIZE ≤ outPos st then
    let os1 := st.outsize * 3 / 2
    let os2 := if max_size ≠ 0 ∧ max_size ≤ os1 then max_size + MAX_OP_SIZE + 1 else os1
    if max_size ≠ 0 ∧ max_size < outPos st then .error .sizeTooBig
    else .ok { st with outsize := os2 }
  else .ok st

/-- The probing half of one iteration of the main scan loop of
`create_delta` (`if (msize < 4096) { ... }`): shift the rolling window one
byte and scan the fingerprint's bucket for a better match. -/
def encProbe (index : DeltaIndex) (trg : Nat → Nat) (top : Nat)
    (st : EncState) : EncState :=
  if st.msize < 4096 then
    -- we do not have a worthy-enough match yet: shift the window, probe
    let v1 := st.val ^^^ U.getD (byteAt trg (st.pos - RABIN_WINDOW)) 0
    let v2 := rabinStep v1 (byteAt trg st.pos)
    let r := scanBucket trg top st.pos v2 (index.buckets (v2 &&& index.hashMask))
      st.msize st.moff st.msource
    { st with val := v2, msize := r.1, moff := r.2.1, msource := r.2.2 }
  else st

/-- The emitting half of one iteration of the main scan loop of
`create_delta` (`if (msize < 4) { ... } else { ... }`). -/
def encEmit (trg : Nat → Nat) (max_size : Nat)
    (st1 : EncState) : Except DeltaError EncState :=
  if st1.msize < 4 then
    -- best match is under 4 bytes: extend the pending insert run
    let pending1 := st1.pending ++ [byteAt trg st1.pos]
    let st2 :=
      if pending1.length = 0x7f then
        { st1 with out := st1.out ++ 0x7f :: pending1, pending := [],
                   pos := st1.pos + 1, msize := 0 }
      else
        { st1 with pending := pending1, pos := st1.pos + 1, msize := 0 }
    growthCheck max_size st2
  else
    -- emit a copy: steal back, flush the insert run, split at 64KiB
    let sb :=
      if st1.pending.isEmpty then (st1.moff, st1.msize, st1.pos, ([] : List Nat))
      else stealGo (srcBufOf st1.msource) trg st1.pending.reverse
        st1.moff st1.msize st1.pos
    let moff1 := sb.1
    let msize1 := sb.2.1
    let pos1 := sb.2.2.1
    let out1 := flushPending st1.out sb.2.2.2.reverse
    let left := if msize1 < 0x10000 then 0 else msize1 - 0x10000
    let emitted := msize1 - left
    let moffG := moff1 + aggOf st1.msource
    let out2 := out1 ++ encCopy moffG emitted
    let pos2 := pos1 + emitted
    let st2 : EncState :=
      { st1 with
        out := out2, pending := [],
        pos := pos2, moff := moff1 + emitted, msize := left,
        val := if left < 4096 then hashFrom trg (pos2 - RABIN_WINDOW) RABIN_WINDOW
               else st1.val }
    growthCheck max_size st2

/-- One iteration of the main scan loop of `create_delta`: probe, then emit. -/
def encStep (index : DeltaIndex) (trg : Nat → Nat) (top max_size : Nat)
    (st : EncState) : Except DeltaError EncState :=
  encEmit trg max_size (encProbe index trg top st)

/-- The main scan loop `while (data < top)`; fuel `top` suffices because the
scan position strictly increases every iteration. -/
def encLoop (index : DeltaIndex) (trg : Nat → Nat) (top max_size : Nat) :
    Nat → EncState → Except DeltaError EncState
  | 0, st => .ok st
  | fuel+1, st =>
    if st.pos < top then encStep index trg top max_size st >>= encLoop index trg top max_size fuel
    else .ok st

/-- The post-loop finalization of `create_delta`: flush the trailing insert
run and apply the final `max_size` check (`if (max_size && outpos > max_size)
return DELTA_SIZE_TOO_BIG`). -/
def create_delta_post (max_size : Nat) :
    Except DeltaError EncState → Except DeltaError (List Nat)
  | .error e => .error e
  | .ok st =>
    let out := flushPending st.out st.pending
    if max_size ≠ 0 ∧ max_size < out.length then .error .sizeTooBig
    else .ok out

/-- `create_delta`: encode `trg` against `index` as a header plus an
insert/copy opcode stream.  The C returns the buffer and its length through
out-parameters; the model returns the byte list. -/
def create_delta (index : Option DeltaIndex) (trg : Nat → Nat)
    (trg_size max_size : Nat) : Except DeltaError (List Nat) :=
  if trg_size = 0 then .error .bufferEmpty
  else
    match index with
    | none => .error .indexNeeded
    | some idx =>
      let outsize0 := if max_size ≠ 0 ∧ max_size ≤ 8192
                      then max_size + MAX_OP_SIZE + 1 else 8192
      let header := varintEnc 32 (trg_size % 4294967296)
      let initLen := min RABIN_WINDOW trg_size
      let pending0 := (List.range initLen).map (fun k => byteAt trg k)
      let st0 : EncState :=
        ⟨initLen, hashFrom trg 0 initLen, 0, 0, none, header, pending0, outsize0⟩
      create_delta_post max_size (encLoop idx trg trg_size max_size trg_size st0)

/-! ## A decoder for the wire format

Modelled from the spec (§6): the decoder replaying an opcode stream is not
part of the analysed sources (the spec explicitly calls it an external
consumer), so it is defined here from the spec's wire-format words: a
varint target-length header, then insert ops (`0 < count ≤ 127` literal
bytes; a zero opcode byte is invalid) and copy ops (a command byte with top
bit set, bits 0–3 selecting present offset bytes, bits 4–5 selecting present
length bytes, missing bytes zero, and an all-zero length meaning 65536),
copies reading from the logical source concatenation. -/

/-- One structured opcode as decoded from the wire. -/
inductive DOp where
  | dIns (bs : List Nat)
  | dCopy (off len : Nat)
deriving DecidableEq, Repr

/-- Modelled from the spec: parse a little-endian base-128 varint. -/
def parseVarint : List Nat → Option (Nat × List Nat)
  | [] => none
  | b :: rest =>
    if b < 128 then some (b, rest)
    else (parseVarint rest).map (fun vr => ((b - 128) + 128 * vr.1, vr.2))

/-- Read one byte when the flag bit is set, else produce zero. -/
def readFlagged (flag : Bool) (l : List Nat) : Option (Nat × List Nat) :=
  if flag then
    match l with
    | [] => none
    | b :: r => some (b, r)
  else some (0, l)

/-- Modelled from the spec: parse an opcode stream into structured ops.
Fuel: the byte count. -/
def parseOps : Nat → List Nat → Option (List DOp)
  | _, [] => some []
  | 0, _ :: _ => none
  | fuel+1, cmd :: rest =>
    if 128 ≤ cmd then do
      let r0 ← readFlagged (cmd &&& 0x01 ≠ 0) rest
      let r1 ← readFlagged (cmd &&& 0x02 ≠ 0) r0.2
      let r2 ← readFlagged (cmd &&& 0x04 ≠ 0) r1.2
      let r3 ← readFlagged (cmd &&& 0x08 ≠ 0) r2.2
      let r4 ← readFlagged (cmd &&& 0x10 ≠ 0) r3.2
      let r5 ← readFlagged (cmd &&& 0x20 ≠ 0) r4.2
      let off := r0.1 + 256 * r1.1 + 65536 * r2.1 + 16777216 * r3.1
      let len0 := r4.1 + 256 * r5.1
      let len := if len0 = 0 then 65536 else len0
      let ops ← parseOps fuel r5.2
      pure (.dCopy off len :: ops)
    else if cmd = 0 then none
    else
      if rest.length < cmd then none
      else do
        let ops ← parseOps fuel (rest.drop cmd)
        pure (.dIns (rest.take cmd) :: ops)

/-- Modelled from the spec: replay structured ops against the logical source
concatenation `srcRead`, producing the reconstructed target bytes. -/
def replayOps (srcRead : Nat → Nat) : List DOp → List Nat
  | [] => []
  | .dIns bs :: ops => bs ++ replayOps srcRead ops
  | .dCopy off len :: ops =>
    (List.range len).map (fun k => byteAt srcRead (off + k)) ++ replayOps srcRead ops

/-- Modelled from the spec: decode a delta byte stream, returning the header
value (the encoded target length) and the reconstructed target bytes. -/
def decode_delta (srcRead : Nat → Nat) (delta : List Nat) : Option (Nat × List Nat) := do
  let hr ← parseVarint delta
  let ops ← parseOps hr.2.length hr.2
  pure (hr.1, replayOps srcRead ops)

/-! ## Auxiliary definitions used only to state claims -/

/-- Spec-side well-formedness of a delta buffer, following the claim's list
of malformed shapes: scanning opcodes from `pos`, a zero opcode byte is
malformed, an insert whose count overruns the buffer is malformed, and the
scan must consume the buffer exactly to its end.  Fuel: the buffer size. -/
def wfDelta (buf : Nat → Nat) (size : Nat) : Nat → Nat → Bool
  | 0, pos => pos = size
  | fuel+1, pos =>
    if pos = size then true
    else if size < pos then false
    else
      let cmd := byteAt buf pos
      if 128 ≤ cmd then wfDelta buf size fuel (pos + 1 + copySkip cmd)
      else if cmd = 0 then false
      else if size < pos + 1 + cmd then false
      else wfDelta buf size fuel (pos + 1 + cmd)

/-- Like `wfDelta`, but a zero opcode byte or a truncated insert count byte
sitting at the very last buffer position is tolerated — the shapes the code
accepts, per the amended claim C6. -/
def wfDeltaLoose (buf : Nat → Nat) (size : Nat) : Nat → Nat → Bool
  | 0, pos => pos = size
  | fuel+1, pos =>
    if pos = size then true
    else if size < pos then false
    else
      let cmd := byteAt buf pos
      if 128 ≤ cmd then wfDeltaLoose buf size fuel (pos + 1 + copySkip cmd)
      else if cmd = 0 then pos + 1 = size
      else if size < pos + 1 + cmd then pos + 1 = size
      else wfDeltaLoose buf size fuel (pos + 1 + cmd)

/-- The smallest power of two that is at least `x` (the claim C9 wording
"next power of two greater than or equal to total_entries / 4"). -/
def nextPow2AtLeast (x : Nat) : Nat := 2 ^ Nat.clog 2 x

/-- Entry count of an optional old index (0 when absent). -/
def oldNumEntries : Option DeltaIndex → Nat
  | some o => o.numEntries
  | none => 0

/-- Bucket count of an optional old index (0 when absent). -/
def oldBucketCount : Option DeltaIndex → Nat
  | some o => o.hashMask + 1
  | none => 0

/-- A default entry for list indexing in statements about bucket culling. -/
def dummyEntry : IndexEntry := ⟨0, ⟨fun _ => 0, 0, 0⟩, 0⟩

/-- A source whose every byte reads as the constant `c` (used for concrete
counterexample inputs). -/
def constSrc (c n : Nat) : SourceInfo := ⟨fun _ => c, n, 0⟩

/-- The wire bytes of one structured opcode, as `create_delta` emits them:
an insert is its count byte followed by the literal bytes, a copy is
`encCopy`. -/
def encOp : DOp → List Nat
  | .dIns bs => bs.length :: bs
  | .dCopy off len => encCopy off len

/-- The wire bytes of a list of structured opcodes. -/
def opsBytes : List DOp → List Nat
  | [] => []
  | op :: ops => encOp op ++ opsBytes ops

/-- What the spec's decoder recovers from an emitted opcode: inserts are
unchanged, a copy offset is reduced to its 32 wire bits. -/
def normOp : DOp → DOp
  | .dIns bs => .dIns bs
  | .dCopy off len => .dCopy (off % 4294967296) len

/-- Structural well-formedness of an emitted opcode: an insert carries 1 to
127 literal bytes, a copy covers 4 to 65536 bytes. -/
def WFOp : DOp → Prop
  | .dIns bs => 1 ≤ bs.length ∧ bs.length ≤ 127
  | .dCopy _ len => 4 ≤ len ∧ len ≤ 65536

/-- Structural invariant of the encoder state: the finalized output is the
header followed by whole well-formed opcodes, and the pending insert run
holds at most 126 bytes. -/
def InvS (header : List Nat) (st : EncState) : Prop :=
  ∃ ops, st.out = header ++ opsBytes ops ∧
    (∀ op ∈ ops, WFOp op) ∧ st.pending.length ≤ 126

/-- The recorded best match is absent, or records a verified region: it
points into `S`, stays inside `S`, and its bytes equal the target bytes at
the scan position. -/
def GoodMatch (S : SourceInfo) (trg : Nat → Nat) (pos msize moff : Nat)
    (msrc : Option SourceInfo) : Prop :=
  msize = 0 ∨ (msrc = some S ∧ moff + msize ≤ S.size ∧
    ∀ k, k < msize → byteAt S.buf (moff + k) = byteAt trg (pos + k))

/-- Semantic invariant of the encoder state against a single source `S`:
the structural invariant, position bounds, a verified best match, and the
replay of the finalized opcodes plus the pending run reconstructing exactly
the target bytes scanned so far. -/
def InvR (S : SourceInfo) (trg : Nat → Nat) (top : Nat) (header : List Nat)
    (st : EncState) : Prop :=
  ∃ ops, st.out = header ++ opsBytes ops ∧
    (∀ op ∈ ops, WFOp op) ∧
    st.pending.length ≤ 126 ∧
    st.pending.length ≤ st.pos ∧
    st.pos ≤ top ∧
    st.pos + st.msize ≤ top ∧
    GoodMatch S trg st.pos st.msize st.moff st.msource ∧
    replayOps S.buf (ops.map normOp) =
      (List.range (st.pos - st.pending.length)).map (byteAt trg) ∧
    st.pending = (List.range st.pending.length).map
      (fun k => byteAt trg (st.pos - st.pending.length + k))

/-- Every entry of every bucket of `idx` points into the source `S`. -/
def bucketsFrom (idx : DeltaIndex) (S : SourceInfo) : Prop :=
  ∀ i, ∀ e ∈ idx.buckets i, e.src = S

/-- A constant target/source byte function (every byte reads 65). -/
def trgC : Nat → Nat := fun _ => 65

/-- A 65540-byte constant source for the C4 counterexample. -/
def cexS : SourceInfo := ⟨trgC, 65540, 0⟩

/-- The rolling hash of the first window of the constant buffer. -/
def Hc0 : Nat := hashFrom trgC 0 16

/-- The fingerprint the encoder computes at every probe position of the
constant buffer. -/
def Hc : Nat := rabinStep (Hc0 ^^^ U.getD 65 0) 65

/-- A one-entry index over `cexS` whose entry fingerprint matches the
constant buffer's probe fingerprint. -/
def cexIdx : DeltaIndex := ⟨0, 1, fun _ => [⟨0, cexS, Hc⟩], fun _ => 0, none⟩

/-- The encoder state entering the scan loop for the C4 counterexample
target (65556 constant bytes against `cexIdx`). -/
def cexSt0 : EncState :=
  ⟨16, Hc0, 0, 0, none, [148, 128, 4], List.replicate 16 65, 8192⟩

/-- The state after the first loop iteration: a 65540-byte match was found,
the 16-byte insert run was flushed, and a full 65536-byte copy was emitted
as the single byte `0x80`; 4 match bytes are left over. -/
def cexSt1 : EncState :=
  ⟨65552, hashFrom trgC 65536 16, 4, 65536, some cexS,
    [148, 128, 4, 16] ++ List.replicate 16 65 ++ [128], [], 8192⟩

/-- The full delta `create_delta` emits for the C4 counterexample: header,
a 16-byte insert, a 65536-byte copy (`0x80`), and a 4-byte copy. -/
def cexOut : List Nat :=
  [148, 128, 4, 16] ++ List.replicate 16 65 ++ [128, 148, 1, 4]

/-- The state after the second loop iteration: the 4 leftover match bytes
were emitted as a copy at offset 65536, finishing the scan. -/
def cexSt2 : EncState :=
  ⟨65556, hashFrom trgC 65540 16, 0, 65540, some cexS, cexOut, [], 8192⟩

end DiffDelta

namespace DiffDelta

/-! # Theorems -/

/-! ## Claim C5: error codes of the entry points -/

/-- Claim C5: a zero-length source makes `create_delta_index` fail with
`SourceEmpty`; a zero-length target makes `create_delta` fail with
`BufferEmpty`; a missing index with a non-empty target makes `create_delta`
fail with `IndexNeeded`.  In each case no output is produced (the model
returns only the error).  Null pointers are not representable in the model;
the zero-size cases are the reachable half of the C checks. -/
theorem c5_error_codes :
    (∀ (src : SourceInfo) (old : Option DeltaIndex) (mb : Int), src.size = 0 →
        create_delta_index src old mb = .error .sourceEmpty) ∧
    (∀ (index : Option DeltaIndex) (trg : Nat → Nat) (max_size : Nat),
        create_delta index trg 0 max_size = .error .bufferEmpty) ∧
    (∀ (trg : Nat → Nat) (trg_size max_size : Nat), trg_size ≠ 0 →
        create_delta none trg trg_size max_size = .error .indexNeeded) := by
  refine ⟨?_, ?_, ?_⟩
  · intro src old mb h
    simp [create_delta_index, h]
  · intro index trg max_size
    simp [create_delta]
  · intro trg trg_size max_size h
    simp [create_delta, h]

/-- Witness for C5 at concrete inputs. -/
theorem c5_error_codes_witness :
    create_delta_index ⟨fun _ => 0, 0, 0⟩ none 0 = .error .sourceEmpty ∧
    create_delta none (fun _ => 0) 0 0 = .error .bufferEmpty ∧
    create_delta none (fun _ => 0) 5 0 = .error .indexNeeded :=
  ⟨c5_error_codes.1 ⟨fun _ => 0, 0, 0⟩ none 0 rfl,
   c5_error_codes.2.1 none (fun _ => 0) 0,
   c5_error_codes.2.2 (fun _ => 0) 5 0 (by decide)⟩

/-! ## Claim C10: sources of at most 16 bytes skip delta validation -/

/-- Claim C10: for a non-null old index and a non-empty source of at most
`RABIN_WINDOW` bytes, `create_delta_index_from_delta` returns `DELTA_OK`
with the old index unchanged, without parsing the delta at all (the buffer
contents are fully unconstrained here, so even malformed bytes pass). -/
theorem c10_small_source_skips_validation (src : SourceInfo) (old : DeltaIndex)
    (h1 : 0 < src.size) (h2 : src.size ≤ RABIN_WINDOW) :
    create_delta_index_from_delta src (some old) = .ok old := by
  have hz : src.size ≠ 0 := Nat.pos_iff_ne_zero.mp h1
  have hdiv : (src.size - 1) / RABIN_WINDOW = 0 := by
    apply Nat.div_eq_of_lt
    simp [RABIN_WINDOW] at h2 ⊢
    omega
  simp [create_delta_index_from_delta, hz, hdiv]

/-- Witness for C10: a 3-byte buffer containing a zero opcode byte and a
truncated insert is accepted unexamined. -/
theorem c10_small_source_skips_validation_witness :
    create_delta_index_from_delta ⟨fun i => [5, 0, 7].getD i 0, 3, 0⟩
      (some ⟨15, 0, fun _ => [], fun _ => 4, none⟩) =
      .ok ⟨15, 0, fun _ => [], fun _ => 4, none⟩ :=
  c10_small_source_skips_validation _ _ (by decide) (by decide)

/-! ## Claim C9 (bucket-count choice) and supporting lemmas -/

/-- Helper: an `Except` whose ok-test evaluates to `true` is an `.ok`. -/
theorem ok_of_isOkTest {α : Type} {x : Except DeltaError α}
    (h : (match x with | .ok _ => true | .error _ => false) = true) :
    ∃ v, x = .ok v := by
  cases x with
  | ok v => exact ⟨v, rfl⟩
  | error e => simp at h

/-- The exponent loop computes `min 31 (max i (clog 2 h))` from fuel
`31 - i`. -/
theorem hsizeExpGo_spec : ∀ (fuel i h : Nat), i + fuel = 31 →
    hsizeExpGo fuel i h = min 31 (max i (Nat.clog 2 h)) := by
  intro fuel
  induction fuel with
  | zero =>
    intro i h hi
    have : i = 31 := by omega
    subst this
    simp [hsizeExpGo]
  | succ f ih =>
    intro i h hi
    show (if 2 ^ i < h ∧ i < 31 then hsizeExpGo f (i + 1) h else i) = _
    by_cases hcond : 2 ^ i < h
    · have hlt : i < 31 := by omega
      have hclog : i < Nat.clog 2 h := (Nat.pow_lt_iff_lt_clog (by norm_num)).mp hcond
      rw [if_pos ⟨hcond, hlt⟩, ih (i + 1) h (by omega)]
      omega
    · have hclog : Nat.clog 2 h ≤ i := (Nat.le_pow_iff_clog_le (by norm_num)).mp (by omega)
      rw [if_neg (by tauto)]
      omega

/-- `hsizeExp` in closed form. -/
theorem hsizeExp_spec (h : Nat) : hsizeExp h = min 31 (max 4 (Nat.clog 2 h)) :=
  hsizeExpGo_spec 27 4 h rfl

/-- `pack_delta_index` always produces an index whose mask is `hsize - 1`
(the fit-in-place path requires the old mask to equal it). -/
theorem pack_delta_index_hashMask (hash : Nat → List IndexEntry)
    (hsize num_entries : Nat) (old : Option DeltaIndex) :
    (pack_delta_index hash hsize num_entries old).hashMask = hsize - 1 := by
  cases old with
  | none => rfl
  | some o =>
    by_cases hc : o.hashMask = hsize - 1 ∧ ∀ i < hsize, (hash i).length ≤ o.spare i
    · simp only [pack_delta_index, if_pos hc]
      exact hc.1
    · simp only [pack_delta_index, if_neg hc]

/-- `effEntriesStride` first component in `min` form. -/
theorem effEntriesStride_fst (size : Nat) (mb : Int) :
    (effEntriesStride size mb).1 =
      if 0 < mb then
        min ((size - 1) / RABIN_WINDOW) ((mb / (RABIN_WINDOW : Int)).toNat)
      else (size - 1) / RABIN_WINDOW := by
  unfold effEntriesStride
  by_cases h1 : 0 < mb
  · by_cases h2 : (mb / (RABIN_WINDOW : Int)).toNat < (size - 1) / RABIN_WINDOW <;>
      simp [h1, h2] <;> omega
  · simp [h1]

/-- `chooseHm` second component in `max` form. -/
theorem chooseHm_snd (t : Nat) (old : Option DeltaIndex) :
    (chooseHm t old).2 = max (2 ^ hsizeExp (t / 4)) (oldBucketCount old) := by
  unfold chooseHm
  cases old with
  | none => simp [oldBucketCount]
  | some o =>
    simp only [oldBucketCount]
    by_cases hc : 2 ^ hsizeExp (t / 4) - 1 < o.hashMask
    · simp only [if_pos hc]
      have := Nat.one_le_two_pow (n := hsizeExp (t / 4))
      omega
    · simp only [if_neg hc]
      have := Nat.one_le_two_pow (n := hsizeExp (t / 4))
      omega

/-- `chooseHm` is (mask, mask+1). -/
theorem chooseHm_fst (t : Nat) (old : Option DeltaIndex) :
    (chooseHm t old).1 = (chooseHm t old).2 - 1 := by
  unfold chooseHm
  cases old with
  | none => simp
  | some o =>
    by_cases hc : 2 ^ hsizeExp (t / 4) - 1 < o.hashMask <;> simp [hc]

/-- The mask of a built index. -/
theorem buildIndexResult_hashMask (src : SourceInfo) (old : Option DeltaIndex) (mb : Int) :
    (buildIndexResult src old mb).hashMask =
      (chooseHm ((effEntriesStride src.size mb).1 + oldNumEntries old) old).2 - 1 := by
  simp only [buildIndexResult, pack_delta_index_hashMask]
  cases old <;> rfl

/-- The bucket count actually chosen by `create_delta_index`, in closed
form: the exponent is clamped to `[4, 31]` and the old mask wins if larger. -/
theorem create_delta_index_bucket_count (src : SourceInfo) (old : Option DeltaIndex)
    (mb : Int) (idx : DeltaIndex) (h : create_delta_index src old mb = .ok idx) :
    idx.hashMask + 1 =
      max (2 ^ min 31 (max 4 (Nat.clog 2 ((
          (if 0 < mb then
              min ((src.size - 1) / RABIN_WINDOW) ((mb / (RABIN_WINDOW : Int)).toNat)
            else (src.size - 1) / RABIN_WINDOW)
          + oldNumEntries old) / 4))))
        (oldBucketCount old) := by
  by_cases hz : src.size = 0
  · simp [create_delta_index, hz] at h
  rw [create_delta_index, if_neg hz] at h
  have hinj := Except.ok.inj h
  subst hinj
  rw [buildIndexResult_hashMask, chooseHm_snd, hsizeExp_spec, effEntriesStride_fst]
  have key : ∀ (e b : Nat), max (2 ^ e) b - 1 + 1 = max (2 ^ e) b := by
    intro e b
    have : 1 ≤ 2 ^ e := Nat.one_le_two_pow
    omega
  cases old with
  | none => exact key _ _
  | some o => exact key _ _

/-- `chooseHm_snd` restated through the option projections. -/
theorem oldNumEntries_some (o : DeltaIndex) : oldNumEntries (some o) = o.numEntries := rfl

/-- Bucket count of `create_index_from_old_and_new_entries`, given that the
old mask is a power of two minus one. -/
theorem create_index_bucket_count (old : DeltaIndex) (entries : List IndexEntry)
    (hpow : ∃ k, old.hashMask + 1 = 2 ^ k) :
    (create_index_from_old_and_new_entries old entries).hashMask + 1 =
      max (2 ^ min 31 (max 4 (Nat.clog 2 ((entries.length + old.numEntries) / 4))))
        (old.hashMask + 1) := by
  obtain ⟨k, hk⟩ := hpow
  unfold create_index_from_old_and_new_entries
  simp only [hsizeExp_spec]
  set e := min 31 (max 4 (Nat.clog 2 ((entries.length + old.numEntries) / 4))) with he
  have he4 : 4 ≤ e := by
    have h1 : 4 ≤ max 4 (Nat.clog 2 ((entries.length + old.numEntries) / 4)) := le_max_left _ _
    have h2 : max 4 (Nat.clog 2 ((entries.length + old.numEntries) / 4)) ≤ 31 ∨
        (31 : Nat) ≤ 31 := Or.inr le_rfl
    omega
  have hpow16 : 16 ≤ 2 ^ e := by
    calc (16 : Nat) = 2 ^ 4 := by norm_num
    _ ≤ 2 ^ e := Nat.pow_le_pow_right (by norm_num) he4
  have heven : 2 ∣ 2 ^ e := dvd_pow_self 2 (by omega)
  have hk0 : k = 0 ∨ 2 ∣ 2 ^ k := by
    rcases Nat.eq_zero_or_pos k with h | h
    · exact Or.inl h
    · exact Or.inr (dvd_pow_self 2 (by omega))
  by_cases hc : 2 ^ e < old.hashMask
  · simp only [if_pos hc]
    omega
  · simp only [if_neg hc]
    -- old.hashMask ≤ 2 ^ e and they cannot be equal (parity / size)
    rcases hk0 with h0 | h2
    · subst h0
      simp at hk
      omega
    · omega

/-- `holeFill` never changes the hash mask. -/
theorem holeFill_hashMask : ∀ (es : List IndexEntry) (idx : DeltaIndex),
    (holeFill idx es).1.hashMask = idx.hashMask := by
  intro es
  induction es with
  | nil => intro idx; rfl
  | cons e rest ih =>
    intro idx
    simp only [holeFill]
    split
    · exact ih _
    · rfl

/-! ## Claim C9 -/

/-- Claim C9 counterexample: the claim predicts the bucket count is the next
power of two at or above `total_entries / 4` (never below a merged old
index's bucket count), but for a 33-byte source (2 entries, no old index)
the code picks 16 buckets while the claim value is `nextPow2AtLeast 0 = 1`:
the loop starts at exponent 4, so the bucket count never drops below 16. -/
theorem c9_counterexample :
    ¬ (∀ (src : SourceInfo) (old : Option DeltaIndex) (mb : Int) (idx : DeltaIndex),
        create_delta_index src old mb = .ok idx →
        idx.hashMask + 1 =
          max (nextPow2AtLeast ((
              (if 0 < mb then
                  min ((src.size - 1) / RABIN_WINDOW) ((mb / (RABIN_WINDOW : Int)).toNat)
                else (src.size - 1) / RABIN_WINDOW)
              + oldNumEntries old) / 4))
            (oldBucketCount old)) := by
  intro hclaim
  obtain ⟨idx, hidx⟩ := ok_of_isOkTest (x := create_delta_index (constSrc 3 33) none 0) rfl
  have h1 := hclaim (constSrc 3 33) none 0 idx hidx
  have h2 := create_delta_index_bucket_count (constSrc 3 33) none 0 idx hidx
  have hc0 : Nat.clog 2 0 = 0 := Nat.clog_of_right_le_one (by norm_num) 2
  norm_num [constSrc, RABIN_WINDOW, nextPow2AtLeast, oldNumEntries,
    oldBucketCount, hc0] at h1 h2
  omega

/-- Claim C9 (amended): the chosen bucket count is the next power of two at
or above `total_entries / 4` with the exponent clamped to the range
`[4, 31]` (so never below 16 buckets), and never smaller than the bucket
count of a previous index being merged in; for the merge path
`create_index_from_old_and_new_entries` the same holds when the old mask is
a power of two minus one. -/
theorem c9_bucket_count_amended :
    (∀ (src : SourceInfo) (old : Option DeltaIndex) (mb : Int) (idx : DeltaIndex),
        create_delta_index src old mb = .ok idx →
        idx.hashMask + 1 =
          max (2 ^ min 31 (max 4 (Nat.clog 2 ((
              (if 0 < mb then
                  min ((src.size - 1) / RABIN_WINDOW) ((mb / (RABIN_WINDOW : Int)).toNat)
                else (src.size - 1) / RABIN_WINDOW)
              + oldNumEntries old) / 4))))
            (oldBucketCount old)) ∧
    (∀ (old : DeltaIndex) (entries : List IndexEntry), (∃ k, old.hashMask + 1 = 2 ^ k) →
        (create_index_from_old_and_new_entries old entries).hashMask + 1 =
          max (2 ^ min 31 (max 4 (Nat.clog 2 ((entries.length + old.numEntries) / 4))))
            (old.hashMask + 1)) :=
  ⟨fun src old mb idx h => create_delta_index_bucket_count src old mb idx h,
   fun old entries h => create_index_bucket_count old entries h⟩

/-- Witness for the amended C9 at the 33-byte source. -/
theorem c9_bucket_count_amended_witness :
    ∃ idx, create_delta_index (constSrc 3 33) none 0 = .ok idx ∧ idx.hashMask + 1 = 16 := by
  obtain ⟨idx, hidx⟩ := ok_of_isOkTest (x := create_delta_index (constSrc 3 33) none 0) rfl
  refine ⟨idx, hidx, ?_⟩
  have h2 := c9_bucket_count_amended.1 (constSrc 3 33) none 0 idx hidx
  rw [h2]
  have hc0 : Nat.clog 2 0 = 0 := Nat.clog_of_right_le_one (by norm_num) 2
  norm_num [constSrc, RABIN_WINDOW, oldNumEntries, oldBucketCount, hc0]

/-! ## Claim C8: the mask invariant -/

/-- Claim C8: every index produced by `create_delta_index` or
`create_delta_index_from_delta` has a power-of-two bucket count
(`hash_mask + 1`), and when an old index is extended or merged the new
bucket count is never smaller than the old one.  The power-of-two property
of the incoming old index is the inductive hypothesis of the invariant. -/
theorem c8_hash_mask_invariant :
    (∀ (src : SourceInfo) (old : Option DeltaIndex) (mb : Int) (idx : DeltaIndex),
        create_delta_index src old mb = .ok idx →
        (∀ o, old = some o → ∃ k, o.hashMask + 1 = 2 ^ k) →
        (∃ k, idx.hashMask + 1 = 2 ^ k) ∧
        (∀ o, old = some o → o.hashMask ≤ idx.hashMask)) ∧
    (∀ (src : SourceInfo) (old idx : DeltaIndex),
        create_delta_index_from_delta src (some old) = .ok idx →
        (∃ k, old.hashMask + 1 = 2 ^ k) →
        (∃ k, idx.hashMask + 1 = 2 ^ k) ∧ old.hashMask ≤ idx.hashMask) := by
  constructor
  · intro src old mb idx h hpow
    have hbc := create_delta_index_bucket_count src old mb idx h
    cases old with
    | none =>
      refine ⟨?_, fun o ho => by cases ho⟩
      rw [hbc]
      simp only [oldBucketCount, Nat.max_zero]
      exact ⟨_, rfl⟩
    | some o =>
      obtain ⟨k, hk⟩ := hpow o rfl
      simp only [oldBucketCount] at hbc
      rcases Nat.le_total (2 ^ min 31 (max 4 (Nat.clog 2 (((if 0 < mb then
          min ((src.size - 1) / RABIN_WINDOW) ((mb / (RABIN_WINDOW : Int)).toNat)
        else (src.size - 1) / RABIN_WINDOW) + oldNumEntries (some o)) / 4))))
          (o.hashMask + 1) with hle | hle
      · refine ⟨⟨k, ?_⟩, fun o2 ho2 => ?_⟩
        · omega
        · cases ho2; omega
      · constructor
        · exact ⟨_, by rw [hbc, Nat.max_eq_left hle]⟩
        · intro o2 ho2; cases ho2; omega
  · intro src old idx h hpow
    simp only [create_delta_index_from_delta] at h
    split at h
    · exact absurd h (by simp)
    split at h
    · have := Except.ok.inj h
      subst this
      exact ⟨hpow, le_rfl⟩
    split at h
    · exact absurd h (by simp)
    split at h
    · have := Except.ok.inj h
      subst this
      exact ⟨hpow, le_rfl⟩
    split at h
    · have := Except.ok.inj h
      subst this
      rw [holeFill_hashMask]
      exact ⟨hpow, le_rfl⟩
    · have hinj := Except.ok.inj h
      subst hinj
      set sc := (fromDeltaScan src ((src.size - 1) / RABIN_WINDOW) src.size
        (get_delta_hdr_size src.buf src.size src.size 0) 4294967295 []).2 with hsc
      set hfp := holeFill { old with lastSrc := some src } sc with hhf
      have hm : hfp.1.hashMask = old.hashMask := by
        rw [hhf]
        exact holeFill_hashMask _ _
      have hpow2 : ∃ k, hfp.1.hashMask + 1 = 2 ^ k := by rw [hm]; exact hpow
      have hbc := create_index_bucket_count hfp.1 hfp.2 hpow2
      rw [hm] at hbc
      rcases Nat.le_total
        (2 ^ min 31 (max 4 (Nat.clog 2 ((hfp.2.length + hfp.1.numEntries) / 4))))
        (old.hashMask + 1) with hle | hle
      · obtain ⟨k, hk⟩ := hpow
        exact ⟨⟨k, by omega⟩, by omega⟩
      · exact ⟨⟨_, by rw [hbc, Nat.max_eq_left hle]⟩, by omega⟩

/-- Witness for C8: the second conjunct applied to a tiny source and old
index with mask 15, and the first to a fresh build. -/
theorem c8_hash_mask_invariant_witness :
    ∃ idx, create_delta_index (constSrc 3 33) none 0 = .ok idx ∧
      (∃ k, idx.hashMask + 1 = 2 ^ k) := by
  obtain ⟨idx, hidx⟩ := ok_of_isOkTest (x := create_delta_index (constSrc 3 33) none 0) rfl
  exact ⟨idx, hidx, (c8_hash_mask_invariant.1 (constSrc 3 33) none 0 idx hidx
    (fun o ho => by cases ho)).1⟩

/-! ## Claim C6: malformed-delta handling -/

/-- The window loop keeps `pos + cmd` constant. -/
theorem fromDeltaWindows_pos_sum (src : SourceInfo) (maxN : Nat) :
    ∀ (fuel cmd pos prevVal : Nat) (es : List IndexEntry),
      (fromDeltaWindows src maxN fuel cmd pos prevVal es).2.1 +
        (fromDeltaWindows src maxN fuel cmd pos prevVal es).1 = pos + cmd := by
  intro fuel
  induction fuel with
  | zero => intro cmd pos pv es; rfl
  | succ f ih =>
    intro cmd pos pv es
    simp only [fromDeltaWindows, RABIN_WINDOW]
    split
    · split
      · split
        · rfl
        · rw [ih]
          omega
      · rw [ih]
        omega
    · rfl

/-- The final scan position reaches the buffer end exactly when the buffer
is loosely well formed (malformed opcodes at the final byte escape). -/
theorem fromDeltaScan_eq_wfLoose (src : SourceInfo) (maxN : Nat) :
    ∀ (fuel pos prevVal : Nat) (es : List IndexEntry),
      (fromDeltaScan src maxN fuel pos prevVal es).1 = src.size ↔
        wfDeltaLoose src.buf src.size fuel pos = true := by
  intro fuel
  induction fuel with
  | zero =>
    intro pos pv es
    simp [fromDeltaScan, wfDeltaLoose]
  | succ f ih =>
    intro pos pv es
    simp only [fromDeltaScan, wfDeltaLoose]
    by_cases h1 : pos < src.size
    · have h2 : ¬ pos = src.size := by omega
      have h3 : ¬ src.size < pos := by omega
      rw [if_pos h1, if_neg h2, if_neg h3]
      by_cases h4 : 128 ≤ byteAt src.buf pos
      · rw [if_pos h4, if_pos h4]
        exact ih _ _ _
      · rw [if_neg h4, if_neg h4]
        by_cases h5 : byteAt src.buf pos = 0
        · rw [if_neg (by simp [h5]), if_pos h5]
          simp [eq_comm]
        · rw [if_pos (by simp [h5] : byteAt src.buf pos ≠ 0), if_neg h5]
          by_cases h6 : src.size < pos + 1 + byteAt src.buf pos
          · rw [if_pos h6, if_pos h6]
            simp [eq_comm]
          · rw [if_neg h6, if_neg h6]
            have hsum := fromDeltaWindows_pos_sum src maxN (byteAt src.buf pos)
              (byteAt src.buf pos) (pos + 1) pv es
            rw [show ((fromDeltaWindows src maxN (byteAt src.buf pos) (byteAt src.buf pos)
                (pos + 1) pv es).2.1 + (fromDeltaWindows src maxN (byteAt src.buf pos)
                (byteAt src.buf pos) (pos + 1) pv es).1) = pos + 1 + byteAt src.buf pos
              from hsum]
            exact ih _ _ _
    · rw [if_neg h1]
      by_cases h2 : pos = src.size
      · rw [if_pos h2]
        simp [h2]
      · rw [if_neg h2, if_pos (by omega : src.size < pos)]
        simp [h2]

/-- Claim C6 (amended): for a non-null old index and a source buffer large
enough to be scanned, `create_delta_index_from_delta` returns `SourceBad`
exactly when the opcode scan stops short of the buffer end — which is the
claim's malformedness (insert-count overrun, zero opcode byte, buffer not
consumed exactly) except that a zero opcode byte or a truncated
insert-count byte occupying the final buffer position is accepted.  In the
error case no index is produced (the model returns only the error). -/
theorem c6_sourcebad_amended (src : SourceInfo) (old : DeltaIndex)
    (h1 : 0 < src.size) (h2 : RABIN_WINDOW < src.size) :
    create_delta_index_from_delta src (some old) = .error .sourceBad ↔
      wfDeltaLoose src.buf src.size src.size
        (get_delta_hdr_size src.buf src.size src.size 0) = false := by
  have hz : ¬ src.size = 0 := by omega
  have hmax : ¬ (src.size - 1) / RABIN_WINDOW = 0 := by
    have : RABIN_WINDOW ≤ src.size - 1 := by
      simp only [RABIN_WINDOW] at h2 ⊢
      omega
    have := Nat.one_le_div_iff (by simp [RABIN_WINDOW] : 0 < RABIN_WINDOW) |>.mpr this
    omega
  simp only [create_delta_index_from_delta, if_neg hz, if_neg hmax]
  have hscan := fromDeltaScan_eq_wfLoose src ((src.size - 1) / RABIN_WINDOW)
    src.size (get_delta_hdr_size src.buf src.size src.size 0) 4294967295 []
  by_cases hend : (fromDeltaScan src ((src.size - 1) / RABIN_WINDOW) src.size
      (get_delta_hdr_size src.buf src.size src.size 0) 4294967295 []).1 = src.size
  · rw [if_neg (by simpa using hend)]
    have hwf : wfDeltaLoose src.buf src.size src.size
        (get_delta_hdr_size src.buf src.size src.size 0) = true := hscan.mp hend
    rw [hwf]
    simp only [Bool.true_eq_false, iff_false]
    split
    · simp
    split
    · simp
    · simp
  · rw [if_pos (by simpa using hend)]
    have hwf : ¬ wfDeltaLoose src.buf src.size src.size
        (get_delta_hdr_size src.buf src.size src.size 0) = true := fun hw => hend (hscan.mpr hw)
    simp only [Bool.not_eq_true] at hwf
    simp [hwf]

/-- Claim C6 counterexample: the claim demands `SourceBad` for every
malformed delta (in particular one containing a zero opcode byte), but a
17-byte delta whose final byte is the zero opcode is scanned to the end and
accepted: the function returns `DELTA_OK` with the old index. -/
theorem c6_counterexample :
    ¬ (∀ (src : SourceInfo) (old : DeltaIndex), 0 < src.size → RABIN_WINDOW < src.size →
        wfDelta src.buf src.size src.size
          (get_delta_hdr_size src.buf src.size src.size 0) = false →
        create_delta_index_from_delta src (some old) = .error .sourceBad) := by
  intro hclaim
  have h := hclaim
    ⟨fun i => [5, 14, 7, 7, 7, 7, 7, 7, 7, 7, 7, 7, 7, 7, 7, 7, 0].getD i 0, 17, 0⟩
    ⟨15, 0, fun _ => [], fun _ => 4, none⟩
    (by decide) (by decide) (by decide)
  rw [show create_delta_index_from_delta
      ⟨fun i => [5, 14, 7, 7, 7, 7, 7, 7, 7, 7, 7, 7, 7, 7, 7, 7, 0].getD i 0, 17, 0⟩
      (some ⟨15, 0, fun _ => [], fun _ => 4, none⟩) =
      .ok ⟨15, 0, fun _ => [], fun _ => 4, none⟩ from rfl] at h
  exact absurd h (by simp)

/-- Witness for the amended C6: a delta with a zero opcode byte in the
interior is reported as `SourceBad`. -/
theorem c6_sourcebad_amended_witness :
    create_delta_index_from_delta
      ⟨fun i => [5, 0, 7, 7, 7, 7, 7, 7, 7, 7, 7, 7, 7, 7, 7, 7, 7].getD i 0, 17, 0⟩
      (some ⟨15, 0, fun _ => [], fun _ => 4, none⟩) = .error .sourceBad := by
  rw [c6_sourcebad_amended _ _ (by decide) (by decide)]
  decide



/-! ## Claim C7: bucket culling -/

/-- Closed form of the inner culling loop: starting from a positive
accumulator `a` it unlinks exactly the ceiling of `a/64` nodes. -/
theorem cullInner_spec : ∀ (fuel a : Nat) (l : List IndexEntry), 1 ≤ a →
    (a + 63) / 64 ≤ fuel →
    cullInner fuel (a : Int) l =
      ((a : Int) - 64 * (((a + 63) / 64 : Nat) : Int), l.drop ((a + 63) / 64)) := by
  intro fuel
  induction fuel with
  | zero =>
    intro a l ha hf
    exfalso
    omega
  | succ f ih =>
    intro a l ha hf
    show (if (0 : Int) < (a : Int) - (HASH_LIMIT : Int) then _ else _) = _
    simp only [HASH_LIMIT]
    by_cases hgt : 64 < a
    · rw [if_pos (by push_cast; omega)]
      have hcast : (a : Int) - ((64 : Nat) : Int) = ((a - 64 : Nat) : Int) := by
        push_cast
        omega
      rw [hcast, ih (a - 64) l.tail (by omega) (by omega)]
      rw [← List.drop_one, List.drop_drop]
      simp only [Prod.mk.injEq]
      refine ⟨by push_cast; omega, ?_⟩
      congr 1
      omega
    · rw [if_neg (by push_cast; omega)]
      have hm : (a + 63) / 64 = 1 := by omega
      rw [hm, ← List.drop_one]
      simp only [Prod.mk.injEq]
      refine ⟨by push_cast; omega, trivial⟩

/-- Closed form of the outer culling loop: entering after `j` kept entries
with `m` still to keep, the survivors are the entries at the
Bresenham-spaced positions `t + (t*d + 63)/64` of the original bucket. -/
theorem cullOuter_spec_go (d : Nat) (hd : 1 ≤ d) (l : List IndexEntry)
    (hn : l.length = 64 + d) :
    ∀ (m j : Nat), j + m = 64 →
      ∀ fuel, (64 + d) - (j + (j * d + 63) / 64) ≤ fuel →
      cullOuter (d : Int) fuel
          ((j * d : Int) - 64 * (((j * d + 63) / 64 : Nat) : Int))
          (l.drop (j + (j * d + 63) / 64)) =
        (List.range m).map
          (fun t => l.getD ((j + t) + ((j + t) * d + 63) / 64) dummyEntry) := by
  intro m
  induction m with
  | zero =>
    intro j hj fuel hf
    have hj64 : j = 64 := by omega
    subst hj64
    have hidx : 64 + (64 * d + 63) / 64 = 64 + d := by omega
    have hdl : List.drop (64 + d) l = [] := by
      rw [← hn]
      exact List.drop_length l
    rw [hidx, hdl]
    cases fuel <;> rfl
  | succ m ih =>
    intro j hj fuel hf
    have hA : (j + 1) * d = j * d + d := by ring
    have hsj : j + (j * d + 63) / 64 < 64 + d := by
      have h1 : j ≤ 63 := by omega
      have h2 : j * d ≤ 63 * d := Nat.mul_le_mul_right d h1
      omega
    have hlt : j + (j * d + 63) / 64 < l.length := by omega
    rw [List.drop_eq_getElem_cons hlt]
    obtain ⟨f, rfl⟩ : ∃ f, fuel = f + 1 := ⟨fuel - 1, by omega⟩
    simp only [cullOuter]
    by_cases hpos : (0 : Int) < ((j * d : Int) - 64 * (((j * d + 63) / 64 : Nat) : Int)) + d
    · rw [if_pos hpos]
      have hacc : ((j * d : Int) - 64 * (((j * d + 63) / 64 : Nat) : Int)) + d =
          (((j * d + d) - 64 * ((j * d + 63) / 64) : Nat) : Int) := by
        push_cast
        omega
      have haccpos : 1 ≤ (j * d + d) - 64 * ((j * d + 63) / 64) := by
        rw [hacc] at hpos
        omega
      rw [hacc, cullInner_spec _ _ _ haccpos (by omega)]
      have hstep : ((j * d + d) - 64 * ((j * d + 63) / 64) + 63) / 64 =
          (j * d + d + 63) / 64 - (j * d + 63) / 64 := by
        omega
      rw [hstep, List.drop_drop]
      have hidx2 : j + (j * d + 63) / 64 + 1 +
          ((j * d + d + 63) / 64 - (j * d + 63) / 64) =
          (j + 1) + ((j + 1) * d + 63) / 64 := by
        rw [hA]
        omega
      have hacc2 : (((j * d + d) - 64 * ((j * d + 63) / 64) : Nat) : Int) -
          64 * ((((j * d + d + 63) / 64 - (j * d + 63) / 64 : Nat)) : Int) =
          (((j + 1 : Nat) : Int) * ((d : Nat) : Int) -
            64 * ((((j + 1) * d + 63) / 64 : Nat) : Int)) := by
        rw [show (((j + 1 : Nat)) : Int) * ((d : Nat) : Int) =
          (((j + 1) * d : Nat) : Int) by push_cast; ring, hA]
        omega
      rw [hidx2, hacc2, ih (j + 1) (by omega) f (by rw [hA]; omega)]
      rw [List.range_succ_eq_map, List.map_cons, List.map_map]
      congr 1
      · simp only [Nat.add_zero]
        rw [List.getD_eq_getElem _ _ hlt]
      · apply List.map_congr_left
        intro t _
        simp only [Function.comp, Nat.succ_eq_add_one]
        have ht : j + 1 + t = j + (t + 1) := by omega
        rw [ht]
    · rw [if_neg hpos]
      have hle : j * d + d ≤ 64 * ((j * d + 63) / 64) := by
        push_cast at hpos
        omega
      have hMeq : ((j + 1) * d + 63) / 64 = (j * d + 63) / 64 := by
        rw [hA]
        omega
      have hacc : ((j * d : Int) - 64 * (((j * d + 63) / 64 : Nat) : Int)) + d =
          (((j + 1 : Nat) : Int) * ((d : Nat) : Int) -
            64 * ((((j + 1) * d + 63) / 64 : Nat) : Int)) := by
        rw [hMeq, show (((j + 1 : Nat)) : Int) * ((d : Nat) : Int) =
          (((j + 1) * d : Nat) : Int) by push_cast; ring, hA]
        push_cast
        ring
      have hidx : j + (j * d + 63) / 64 + 1 = (j + 1) + ((j + 1) * d + 63) / 64 := by
        rw [hMeq]
        omega
      rw [hacc, hidx, ih (j + 1) (by omega) f (by rw [hA]; omega)]
      rw [List.range_succ_eq_map, List.map_cons, List.map_map]
      congr 1
      · simp only [Nat.add_zero]
        rw [List.getD_eq_getElem _ _ hlt]
      · apply List.map_congr_left
        intro t _
        simp only [Function.comp, Nat.succ_eq_add_one]
        have ht : j + 1 + t = j + (t + 1) := by omega
        rw [ht]

/-- The per-bucket cull from the top: exactly 64 uniformly spaced survivors. -/
theorem cullOuter_spec (d : Nat) (hd : 1 ≤ d) (l : List IndexEntry)
    (hn : l.length = 64 + d) :
    cullOuter (d : Int) l.length 0 l =
      (List.range 64).map (fun t => l.getD (t + (t * d + 63) / 64) dummyEntry) := by
  have h := cullOuter_spec_go d hd l hn 64 0 (by omega) l.length (by simp [hn])
  simpa using h

/-- Reindexing of a sum over `range (n+1)` at base `i`. -/
theorem sum_range_shift (g : Nat → Nat) (i n : Nat) :
    ((List.range (n + 1)).map (fun t => g (i + t))).sum =
      g i + ((List.range n).map (fun t => g (i + 1 + t))).sum := by
  rw [List.range_succ_eq_map, List.map_cons, List.sum_cons, List.map_map]
  congr 1
  · congr 1
    apply List.map_congr_left
    intro t _
    simp only [Function.comp, Nat.succ_eq_add_one]
    have ht : i + (t + 1) = i + 1 + t := by omega
    rw [ht]

/-- The bucket loop of `limit_hash_buckets` culls exactly the over-full
buckets in `[i, i+n)` and subtracts every bucket surplus from the total. -/
theorem limitGo_spec (hashCount : Nat → Nat) :
    ∀ (n i : Nat) (h : Nat → List IndexEntry) (e : Nat),
      (∀ j, (limitGo hashCount n i h e).1 j =
        if i ≤ j ∧ j < i + n ∧ HASH_LIMIT < hashCount j then
          cullOuter ((hashCount j : Int) - (HASH_LIMIT : Int)) (h j).length 0 (h j)
        else h j) ∧
      (limitGo hashCount n i h e).2 =
        e - ((List.range n).map (fun t => hashCount (i + t) - HASH_LIMIT)).sum := by
  intro n
  induction n with
  | zero =>
    intro i h e
    constructor
    · intro j
      rw [if_neg (by omega)]
      rfl
    · simp [limitGo]
  | succ n ih =>
    intro i h e
    simp only [limitGo]
    by_cases hc : hashCount i ≤ HASH_LIMIT
    · rw [if_pos hc]
      obtain ⟨ih1, ih2⟩ := ih (i + 1) h e
      constructor
      · intro j
        rw [ih1 j]
        by_cases hj : i + 1 ≤ j ∧ j < i + 1 + n ∧ HASH_LIMIT < hashCount j
        · have houter : i ≤ j ∧ j < i + (n + 1) ∧ HASH_LIMIT < hashCount j :=
            ⟨by omega, by omega, hj.2.2⟩
          rw [if_pos hj, if_pos houter]
        · rw [if_neg hj]
          by_cases hj2 : i ≤ j ∧ j < i + (n + 1) ∧ HASH_LIMIT < hashCount j
          · exfalso
            by_cases hij : j = i
            · subst hij
              exact absurd hj2.2.2 (by omega)
            · exact hj ⟨by omega, by omega, hj2.2.2⟩
          · rw [if_neg hj2]
      · rw [ih2, sum_range_shift (fun t => hashCount t - HASH_LIMIT) i n]
        have h0 : hashCount i - HASH_LIMIT = 0 := by omega
        rw [h0]
        simp
    · rw [if_neg hc]
      obtain ⟨ih1, ih2⟩ := ih (i + 1)
        (fun j => if j = i then
          cullOuter ((hashCount i : Int) - (HASH_LIMIT : Int)) (h i).length 0 (h i)
        else h j) (e - (hashCount i - HASH_LIMIT))
      constructor
      · intro j
        rw [ih1 j]
        by_cases hij : j = i
        · subst hij
          have hin : ¬ (j + 1 ≤ j ∧ j < j + 1 + n ∧ HASH_LIMIT < hashCount j) := by omega
          have houter : j ≤ j ∧ j < j + (n + 1) ∧ HASH_LIMIT < hashCount j :=
            ⟨le_rfl, by omega, by omega⟩
          rw [if_neg hin, if_pos rfl, if_pos houter]
        · by_cases hj : i + 1 ≤ j ∧ j < i + 1 + n ∧ HASH_LIMIT < hashCount j
          · have houter : i ≤ j ∧ j < i + (n + 1) ∧ HASH_LIMIT < hashCount j :=
              ⟨by omega, by omega, hj.2.2⟩
            rw [if_pos hj, if_neg hij, if_pos houter]
          · rw [if_neg hj, if_neg hij]
            by_cases hj2 : i ≤ j ∧ j < i + (n + 1) ∧ HASH_LIMIT < hashCount j
            · exact absurd (⟨by omega, by omega, hj2.2.2⟩ :
                i + 1 ≤ j ∧ j < i + 1 + n ∧ HASH_LIMIT < hashCount j) hj
            · rw [if_neg hj2]
      · rw [ih2, sum_range_shift (fun t => hashCount t - HASH_LIMIT) i n]
        omega

/-- Surplus sums are bounded by the raw sums, and removing surpluses leaves
the capped per-bucket counts. -/
theorem sum_min_aux (hashCount : Nat → Nat) : ∀ n : Nat,
    ((List.range n).map (fun i => hashCount i - HASH_LIMIT)).sum ≤
      ((List.range n).map hashCount).sum ∧
    ((List.range n).map (fun i => min (hashCount i) HASH_LIMIT)).sum =
      ((List.range n).map hashCount).sum -
        ((List.range n).map (fun i => hashCount i - HASH_LIMIT)).sum := by
  intro n
  induction n with
  | zero => simp
  | succ n ih =>
    rw [List.range_succ]
    simp only [List.map_append, List.sum_append, List.map_cons, List.sum_cons,
      List.map_nil, List.sum_nil]
    simp only [HASH_LIMIT] at ih ⊢
    omega

/-- Claim C7: after `limit_hash_buckets`, every bucket whose entry count
exceeded `HASH_LIMIT = 64` holds exactly 64 entries, picked at the uniformly
spaced positions `k + ceil(k*(c-64)/64)` of the original bucket list (a
Bresenham spread across the whole bucket, not a prefix or suffix); buckets
with at most 64 entries are unchanged; and the returned total is the sum of
the capped per-bucket counts. -/
theorem c7_limit_hash_buckets (hash : Nat → List IndexEntry) (hashCount : Nat → Nat)
    (hsize entries : Nat)
    (hlen : ∀ i, i < hsize → (hash i).length = hashCount i)
    (hsum : entries = ((List.range hsize).map hashCount).sum) :
    (∀ i, i < hsize →
      (HASH_LIMIT < hashCount i →
        (limit_hash_buckets hash hashCount hsize entries).1 i =
          (List.range HASH_LIMIT).map (fun k =>
            (hash i).getD (k + (k * (hashCount i - HASH_LIMIT) + 63) / 64) dummyEntry) ∧
        ((limit_hash_buckets hash hashCount hsize entries).1 i).length = HASH_LIMIT) ∧
      (hashCount i ≤ HASH_LIMIT →
        (limit_hash_buckets hash hashCount hsize entries).1 i = hash i)) ∧
    (limit_hash_buckets hash hashCount hsize entries).2 =
      ((List.range hsize).map (fun i => min (hashCount i) HASH_LIMIT)).sum := by
  simp only [limit_hash_buckets]
  obtain ⟨hbuck, htot⟩ := limitGo_spec hashCount hsize 0 hash entries
  constructor
  · intro i hi
    constructor
    · intro hover
      have hcull := hbuck i
      have houter : 0 ≤ i ∧ i < 0 + hsize ∧ HASH_LIMIT < hashCount i :=
        ⟨Nat.zero_le i, by omega, hover⟩
      rw [if_pos houter] at hcull
      have hcast : ((hashCount i : Nat) : Int) - (HASH_LIMIT : Int) =
          (((hashCount i - HASH_LIMIT : Nat)) : Int) := by
        simp only [HASH_LIMIT] at hover ⊢
        push_cast
        omega
      have hspec := cullOuter_spec (hashCount i - HASH_LIMIT)
        (by simp only [HASH_LIMIT] at hover ⊢; omega) (hash i)
        (by rw [hlen i hi]; simp only [HASH_LIMIT] at hover ⊢; omega)
      rw [hcast] at hcull
      rw [hcull, hspec]
      constructor
      · rfl
      · simp [HASH_LIMIT]
    · intro hunder
      have hcull := hbuck i
      rw [if_neg (by intro hcon; omega)] at hcull
      exact hcull
  · rw [htot, hsum]
    have haux := sum_min_aux hashCount hsize
    have hsh : ((List.range hsize).map (fun t => hashCount (0 + t) - HASH_LIMIT)).sum =
        ((List.range hsize).map (fun t => hashCount t - HASH_LIMIT)).sum := by
      congr 1
      apply List.map_congr_left
      intro t _
      have h0 : 0 + t = t := by omega
      rw [h0]
    rw [hsh]
    omega

/-- Witness for C7: one bucket of 70 entries is culled to exactly 64 and the
returned total is 64. -/
theorem c7_limit_hash_buckets_witness :
    ((limit_hash_buckets
        (fun _ => (List.range 70).map
          (fun k => ({ ptrOff := k, src := ⟨fun _ => 0, 0, 0⟩, val := 0 } : IndexEntry)))
        (fun _ => 70) 1 70).1 0).length = HASH_LIMIT ∧
    (limit_hash_buckets
        (fun _ => (List.range 70).map
          (fun k => ({ ptrOff := k, src := ⟨fun _ => 0, 0, 0⟩, val := 0 } : IndexEntry)))
        (fun _ => 70) 1 70).2 = 64 := by
  have h := c7_limit_hash_buckets
    (fun _ => (List.range 70).map
      (fun k => ({ ptrOff := k, src := ⟨fun _ => 0, 0, 0⟩, val := 0 } : IndexEntry)))
    (fun _ => 70) 1 70
    (fun i _ => by simp)
    (by simp)
  refine ⟨((h.1 0 (by omega)).1 (by simp [HASH_LIMIT])).2, ?_⟩
  rw [h.2]
  simp [HASH_LIMIT]

/-! ## Encoder wire-format lemmas -/

/-! ### Bitwise bridging lemmas for the copy opcode flags -/

theorem and_mask8 (x k : Nat) : x &&& (255 <<< k) = ((x >>> k) % 256) <<< k := by
  apply Nat.eq_of_testBit_eq
  intro i
  rw [show (255 : Nat) = 2 ^ 8 - 1 by norm_num, show (256 : Nat) = 2 ^ 8 by norm_num]
  simp only [Nat.testBit_and, Nat.testBit_shiftLeft, Nat.testBit_shiftRight,
    Nat.testBit_mod_two_pow, Nat.testBit_two_pow_sub_one]
  by_cases hk : k ≤ i
  · have hki : k + (i - k) = i := by omega
    simp only [hki]
    cases hx : x.testBit i <;> simp [hx, hk]
  · simp [hk]

theorem and_255 (x : Nat) : x &&& 255 = x % 256 := by
  rw [show (255 : Nat) = 2 ^ 8 - 1 by norm_num, Nat.and_pow_two_sub_one_eq_mod]

theorem and_65280 (x : Nat) : x &&& 65280 = x / 256 % 256 * 256 := by
  rw [show (65280 : Nat) = 255 <<< 8 by decide, and_mask8, Nat.shiftLeft_eq,
    Nat.shiftRight_eq_div_pow]

theorem and_16711680 (x : Nat) : x &&& 16711680 = x / 65536 % 256 * 65536 := by
  rw [show (16711680 : Nat) = 255 <<< 16 by decide, and_mask8, Nat.shiftLeft_eq,
    Nat.shiftRight_eq_div_pow]

theorem and_4278190080 (x : Nat) : x &&& 4278190080 = x / 16777216 % 256 * 16777216 := by
  rw [show (4278190080 : Nat) = 255 <<< 24 by decide, and_mask8, Nat.shiftLeft_eq,
    Nat.shiftRight_eq_div_pow]

/-! ### Parsing one emitted opcode -/

theorem parseOps_insert (bs : List Nat) (h1 : 1 ≤ bs.length) (h2 : bs.length ≤ 127)
    (f : Nat) (l : List Nat) :
    parseOps (f + 1) ((bs.length :: bs) ++ l) =
      (parseOps f l).map (fun ops => DOp.dIns bs :: ops) := by
  have hc1 : ¬ (128 ≤ bs.length) := by omega
  have hc2 : ¬ (bs.length = 0) := by omega
  have hc3 : ¬ ((bs ++ l).length < bs.length) := by
    simp only [List.length_append]; omega
  simp only [List.cons_append, parseOps, hc1, if_false, hc2, hc3,
    List.take_left, List.drop_left]
  rcases hp : parseOps f l with _ | ops <;> simp [hp]

theorem le_or_left (a b : Nat) : a ≤ a ||| b :=
  Nat.le_of_testBit (fun i hi => by simp [Nat.testBit_or, hi])

theorem and_or_distrib_right (x y z : Nat) : (x ||| y) &&& z = (x &&& z) ||| (y &&& z) := by
  rw [Nat.and_comm, Nat.and_or_distrib_left, Nat.and_comm z x, Nat.and_comm z y]

theorem and_ite_zero (c : Prop) [inst : Decidable c] (b z : Nat) :
    (if c then b else 0) &&& z = if c then b &&& z else 0 := by
  split
  · rfl
  · simp

theorem decide_ite_ne (c : Prop) [inst : Decidable c] (b : Nat) (hb : b ≠ 0) :
    decide ((if c then b else 0) ≠ 0) = decide c := by
  apply decide_eq_decide.mpr
  split <;> simp_all

theorem readFlagged_ite (c : Prop) [inst : Decidable c] (b : Nat) (tail : List Nat) :
    readFlagged (decide c) ((if c then [b] else []) ++ tail) =
      some ((if c then b else 0), tail) := by
  by_cases h : c <;> simp [h, readFlagged]

theorem flag_value1 (x : Nat) : (if x ≠ 0 then x else 0) = x := by
  split <;> omega

theorem flag_value (x m : Nat) (hm : 0 < m) : (if x * m ≠ 0 then x else 0) = x := by
  split
  · rfl
  · rename_i h
    simp only [ne_eq, not_not] at h
    rcases Nat.mul_eq_zero.mp h with h | h
    · omega
    · omega

theorem parseOps_copy (off len : Nat) (h1 : 1 ≤ len) (h2 : len ≤ 65536)
    (f : Nat) (l : List Nat) :
    parseOps (f + 1) (encCopy off len ++ l) =
      (parseOps f l).map (fun ops => DOp.dCopy (off % 4294967296) len :: ops) := by
  have p8 : (2 : Nat) ^ 8 = 256 := by norm_num
  have p16 : (2 : Nat) ^ 16 = 65536 := by norm_num
  have p24 : (2 : Nat) ^ 24 = 16777216 := by norm_num
  have d1 : off / 256 / 256 = off / 65536 := by
    rw [Nat.div_div_eq_div_mul]
  have d2 : off / 65536 / 256 = off / 16777216 := by
    rw [Nat.div_div_eq_div_mul]
  have d3 : off / 16777216 / 256 = off / 4294967296 := by
    rw [Nat.div_div_eq_div_mul]
  have d4 : len / 256 / 256 = len / 65536 := by
    rw [Nat.div_div_eq_div_mul]
  have hA : ∀ x1 x2 x3 x4 x5 x6 : Nat,
      (128 : Nat) ≤ 128 ||| x1 ||| x2 ||| x3 ||| x4 ||| x5 ||| x6 := by
    intro x1 x2 x3 x4 x5 x6
    exact le_trans (le_trans (le_trans (le_trans (le_trans (le_or_left _ _)
      (le_or_left _ _)) (le_or_left _ _)) (le_or_left _ _)) (le_or_left _ _))
      (le_or_left _ _)
  have ha128_1 : (128 : Nat) &&& 1 = 0 := by decide
  have ha1_1 : (1 : Nat) &&& 1 = 1 := by decide
  have ha2_1 : (2 : Nat) &&& 1 = 0 := by decide
  have ha4_1 : (4 : Nat) &&& 1 = 0 := by decide
  have ha8_1 : (8 : Nat) &&& 1 = 0 := by decide
  have ha16_1 : (16 : Nat) &&& 1 = 0 := by decide
  have ha32_1 : (32 : Nat) &&& 1 = 0 := by decide
  have ha128_2 : (128 : Nat) &&& 2 = 0 := by decide
  have ha1_2 : (1 : Nat) &&& 2 = 0 := by decide
  have ha2_2 : (2 : Nat) &&& 2 = 2 := by decide
  have ha4_2 : (4 : Nat) &&& 2 = 0 := by decide
  have ha8_2 : (8 : Nat) &&& 2 = 0 := by decide
  have ha16_2 : (16 : Nat) &&& 2 = 0 := by decide
  have ha32_2 : (32 : Nat) &&& 2 = 0 := by decide
  have ha128_4 : (128 : Nat) &&& 4 = 0 := by decide
  have ha1_4 : (1 : Nat) &&& 4 = 0 := by decide
  have ha2_4 : (2 : Nat) &&& 4 = 0 := by decide
  have ha4_4 : (4 : Nat) &&& 4 = 4 := by decide
  have ha8_4 : (8 : Nat) &&& 4 = 0 := by decide
  have ha16_4 : (16 : Nat) &&& 4 = 0 := by decide
  have ha32_4 : (32 : Nat) &&& 4 = 0 := by decide
  have ha128_8 : (128 : Nat) &&& 8 = 0 := by decide
  have ha1_8 : (1 : Nat) &&& 8 = 0 := by decide
  have ha2_8 : (2 : Nat) &&& 8 = 0 := by decide
  have ha4_8 : (4 : Nat) &&& 8 = 0 := by decide
  have ha8_8 : (8 : Nat) &&& 8 = 8 := by decide
  have ha16_8 : (16 : Nat) &&& 8 = 0 := by decide
  have ha32_8 : (32 : Nat) &&& 8 = 0 := by decide
  have ha128_16 : (128 : Nat) &&& 16 = 0 := by decide
  have ha1_16 : (1 : Nat) &&& 16 = 0 := by decide
  have ha2_16 : (2 : Nat) &&& 16 = 0 := by decide
  have ha4_16 : (4 : Nat) &&& 16 = 0 := by decide
  have ha8_16 : (8 : Nat) &&& 16 = 0 := by decide
  have ha16_16 : (16 : Nat) &&& 16 = 16 := by decide
  have ha32_16 : (32 : Nat) &&& 16 = 0 := by decide
  have ha128_32 : (128 : Nat) &&& 32 = 0 := by decide
  have ha1_32 : (1 : Nat) &&& 32 = 0 := by decide
  have ha2_32 : (2 : Nat) &&& 32 = 0 := by decide
  have ha4_32 : (4 : Nat) &&& 32 = 0 := by decide
  have ha8_32 : (8 : Nat) &&& 32 = 0 := by decide
  have ha16_32 : (16 : Nat) &&& 32 = 0 := by decide
  have ha32_32 : (32 : Nat) &&& 32 = 32 := by decide
  simp only [encCopy, and_255, and_65280, and_16711680, and_4278190080,
    Nat.shiftRight_eq_div_pow, p8, p16, p24, apply_ite Prod.fst, apply_ite Prod.snd,
    List.cons_append, List.append_assoc, List.nil_append]
  rw [parseOps]
  rw [if_pos (hA _ _ _ _ _ _)]
  simp only [and_or_distrib_right, and_ite_zero, ha128_1, ha128_2, ha128_4, ha128_8, ha128_16, ha128_32, ha1_1, ha2_1, ha4_1, ha8_1, ha16_1, ha32_1, ha1_2, ha2_2, ha4_2, ha8_2, ha16_2, ha32_2, ha1_4, ha2_4, ha4_4, ha8_4, ha16_4, ha32_4, ha1_8, ha2_8, ha4_8, ha8_8, ha16_8, ha32_8, ha1_16, ha2_16, ha4_16, ha8_16, ha16_16, ha32_16, ha1_32, ha2_32, ha4_32, ha8_32, ha16_32, ha32_32,
    ite_self, Nat.zero_or, Nat.or_zero]
  simp only [decide_ite_ne _ _ (by norm_num : (1 : Nat) ≠ 0),
    decide_ite_ne _ _ (by norm_num : (2 : Nat) ≠ 0),
    decide_ite_ne _ _ (by norm_num : (4 : Nat) ≠ 0),
    decide_ite_ne _ _ (by norm_num : (8 : Nat) ≠ 0),
    decide_ite_ne _ _ (by norm_num : (16 : Nat) ≠ 0),
    decide_ite_ne _ _ (by norm_num : (32 : Nat) ≠ 0)]
  simp only [readFlagged_ite, bind, Option.bind]
  rw [flag_value1 (off % 256), flag_value (off / 256 % 256) 256 (by norm_num),
    flag_value (off / 65536 % 256) 65536 (by norm_num),
    flag_value (off / 16777216 % 256) 16777216 (by norm_num),
    flag_value1 (len % 256), flag_value (len / 256 % 256) 256 (by norm_num)]
  rcases hp : parseOps f l with _ | ops <;> simp [hp] <;>
    first
    | omega
    | (constructor <;> first | omega | (split <;> omega))
    | (split <;> omega)

/-! ### The varint header round-trip -/

theorem parseVarint_enc (fuel : Nat) :
    ∀ i, i < 2 ^ (7 * fuel + 7) → ∀ l : List Nat,
      parseVarint (varintEnc fuel i ++ l) = some (i, l) := by
  induction fuel with
  | zero =>
    intro i h l
    have h' : i < 128 := by
      have hp : (2 : Nat) ^ (7 * 0 + 7) = 128 := by norm_num
      omega
    have hm : i % 256 = i := Nat.mod_eq_of_lt (by omega)
    simp [varintEnc, parseVarint, hm, h']
  | succ fuel ih =>
    intro i h l
    by_cases hi : 128 ≤ i
    · have hb : ¬ (i % 128 + 128 < 128) := by omega
      have hs : i >>> 7 = i / 128 := by
        rw [Nat.shiftRight_eq_div_pow]
      have hlt : i / 128 < 2 ^ (7 * fuel + 7) := by
        have hkey : (2 : Nat) ^ (7 * (fuel + 1) + 7) = 2 ^ (7 * fuel + 7) * 128 := by
          rw [show 7 * (fuel + 1) + 7 = (7 * fuel + 7) + 7 by ring, pow_add]
          norm_num
        rw [hkey] at h
        exact Nat.div_lt_of_lt_mul (by omega)
      have hsum : i % 128 + 128 - 128 + 128 * (i / 128) = i := by omega
      have hsum2 : i % 128 + 128 * (i / 128) = i := by omega
      simp only [varintEnc, if_pos hi, List.cons_append, parseVarint, hb, if_false,
        hs, ih (i / 128) hlt l]
      simp [hsum, hsum2]
    · have hm : i % 256 = i := Nat.mod_eq_of_lt (by omega)
      simp [varintEnc, hi, parseVarint, hm, show i < 128 by omega]

/-! ### Parsing a whole emitted opcode stream -/

theorem opsBytes_append (a b : List DOp) :
    opsBytes (a ++ b) = opsBytes a ++ opsBytes b := by
  induction a with
  | nil => simp [opsBytes]
  | cons op rest ih => simp [opsBytes, ih]

theorem encOp_ne_nil (op : DOp) : 1 ≤ (encOp op).length := by
  cases op with
  | dIns bs => simp [encOp]
  | dCopy off len =>
    have h : ∃ c r, encOp (DOp.dCopy off len) = c :: r := ⟨_, _, rfl⟩
    rcases h with ⟨c, r, hcr⟩
    simp [hcr]

theorem length_le_opsBytes (ops : List DOp) : ops.length ≤ (opsBytes ops).length := by
  induction ops with
  | nil => simp [opsBytes]
  | cons op rest ih =>
    have h := encOp_ne_nil op
    simp only [opsBytes, List.length_append, List.length_cons]
    omega

theorem parseOps_opsBytes (ops : List DOp) (hwf : ∀ op ∈ ops, WFOp op) :
    ∀ f, ops.length ≤ f → parseOps f (opsBytes ops) = some (ops.map normOp) := by
  induction ops with
  | nil => intro f _; simp [opsBytes, parseOps]
  | cons op rest ih =>
    intro f hf
    cases f with
    | zero => simp at hf
    | succ f =>
      have hwfo : WFOp op := hwf op (List.mem_cons_self op rest)
      have hrest : ∀ o ∈ rest, WFOp o := fun o ho => hwf o (List.mem_cons_of_mem op ho)
      have hih := ih hrest f (by simp at hf; omega)
      cases op with
      | dIns bs =>
        have h12 : 1 ≤ bs.length ∧ bs.length ≤ 127 := hwfo
        rw [show opsBytes (DOp.dIns bs :: rest) = (bs.length :: bs) ++ opsBytes rest
            from rfl,
          parseOps_insert bs h12.1 h12.2 f (opsBytes rest), hih]
        simp [normOp]
      | dCopy off len =>
        have h12 : 4 ≤ len ∧ len ≤ 65536 := hwfo
        rw [show opsBytes (DOp.dCopy off len :: rest) = encCopy off len ++ opsBytes rest
            from rfl,
          parseOps_copy off len (by omega) h12.2 f (opsBytes rest), hih]
        simp [normOp]

/-! ## Encoder structural invariant -/

/-! ### Encoder state bookkeeping lemmas -/

theorem growthCheck_ok_outsize (ms : Nat) (st st' : EncState)
    (h : growthCheck ms st = .ok st') : ∃ os, st' = { st with outsize := os } := by
  unfold growthCheck at h
  split at h
  · split at h
    · exact absurd h (by simp)
    · injection h with h'
      exact ⟨_, h'.symm⟩
  · injection h with h'
    exact ⟨st.outsize, h'.symm⟩

theorem growthCheck_zero (st : EncState) : ∃ os, growthCheck 0 st = .ok { st with outsize := os } := by
  unfold growthCheck
  split
  · simp
  · exact ⟨st.outsize, rfl⟩

theorem encProbe_fields (idx : DeltaIndex) (trg : Nat → Nat) (top : Nat) (st : EncState) :
    (encProbe idx trg top st).out = st.out ∧
    (encProbe idx trg top st).pending = st.pending ∧
    (encProbe idx trg top st).pos = st.pos ∧
    (encProbe idx trg top st).outsize = st.outsize := by
  unfold encProbe
  split <;> simp

theorem flushPending_eq (out pending : List Nat) :
    flushPending out pending =
      out ++ opsBytes (if pending.isEmpty then [] else [DOp.dIns pending]) := by
  unfold flushPending
  split <;> simp_all [opsBytes, encOp]

/-! ### The steal-back loop -/

theorem stealGo_spec (sb trg : Nat → Nat) :
    ∀ (l : List Nat) (moff msize pos : Nat),
      ∃ k, k ≤ l.length ∧ k ≤ moff ∧
        stealGo sb trg l moff msize pos = (moff - k, msize + k, pos - k, l.drop k) ∧
        ∀ t, t < k → byteAt sb (moff - t - 1) = byteAt trg (pos - t - 1) := by
  intro l
  induction l with
  | nil =>
    intro moff msize pos
    exact ⟨0, Nat.zero_le _, Nat.zero_le _, by simp [stealGo],
      fun t ht => absurd ht (by omega)⟩
  | cons b rest ih =>
    intro moff msize pos
    by_cases hc : moff ≠ 0 ∧ byteAt sb (moff - 1) = byteAt trg (pos - 1)
    · obtain ⟨k, hk1, hk2, hk3, hk4⟩ := ih (moff - 1) (msize + 1) (pos - 1)
      refine ⟨k + 1, by simp only [List.length_cons]; omega, by omega, ?_, ?_⟩
      · rw [show stealGo sb trg (b :: rest) moff msize pos =
            stealGo sb trg rest (moff - 1) (msize + 1) (pos - 1) from by
          simp [stealGo, hc], hk3]
        have e1 : moff - 1 - k = moff - (k + 1) := by omega
        have e2 : msize + 1 + k = msize + (k + 1) := by omega
        have e3 : pos - 1 - k = pos - (k + 1) := by omega
        simp [e1, e2, e3]
      · intro t ht
        match t with
        | 0 =>
          simp only [Nat.sub_zero]
          exact hc.2
        | t + 1 =>
          have h4 := hk4 t (by omega)
          have e1 : moff - 1 - t - 1 = moff - (t + 1) - 1 := by omega
          have e2 : pos - 1 - t - 1 = pos - (t + 1) - 1 := by omega
          rw [e1, e2] at h4
          exact h4
    · refine ⟨0, Nat.zero_le _, Nat.zero_le _, by simp [stealGo, hc],
        fun t ht => absurd ht (by omega)⟩



theorem flushPending_nil (out : List Nat) : flushPending out [] = out := by
  simp [flushPending]

theorem encEmit_InvS (trg : Nat → Nat) (ms : Nat) (hd : List Nat) (st1 st' : EncState)
    (h : encEmit trg ms st1 = .ok st')
    (hinv : InvS hd st1) : InvS hd st' := by
  obtain ⟨ops, hout, hwf, hpl⟩ := hinv
  unfold encEmit at h
  by_cases h4 : st1.msize < 4
  · rw [if_pos h4] at h
    simp only [] at h
    by_cases hlen : (st1.pending ++ [byteAt trg st1.pos]).length = 127
    · rw [if_pos hlen] at h
      obtain ⟨os, rfl⟩ := growthCheck_ok_outsize _ _ _ h
      refine ⟨ops ++ [DOp.dIns (st1.pending ++ [byteAt trg st1.pos])], ?_, ?_, ?_⟩
      · simp [hout, opsBytes_append, opsBytes, encOp, hlen]
      · intro op hop
        rcases List.mem_append.mp hop with hop | hop
        · exact hwf op hop
        · rw [List.mem_singleton.mp hop]
          refine ⟨by simp, by simp [hlen]⟩
      · simp
    · rw [if_neg hlen] at h
      obtain ⟨os, rfl⟩ := growthCheck_ok_outsize _ _ _ h
      refine ⟨ops, by simp [hout], hwf, ?_⟩
      simp only [List.length_append, List.length_singleton]
      simp only [List.length_append, List.length_singleton] at hlen
      omega
  · rw [if_neg h4] at h
    simp only [] at h
    by_cases hpe : st1.pending.isEmpty
    · rw [if_pos hpe] at h
      simp only [List.reverse_nil, flushPending_nil] at h
      obtain ⟨os, rfl⟩ := growthCheck_ok_outsize _ _ _ h
      refine ⟨ops ++ [DOp.dCopy (st1.moff + aggOf st1.msource)
        (st1.msize - (if st1.msize < 65536 then 0 else st1.msize - 65536))], ?_, ?_, ?_⟩
      · simp [hout, opsBytes_append, opsBytes, encOp]
      · intro op hop
        rcases List.mem_append.mp hop with hop | hop
        · exact hwf op hop
        · rw [List.mem_singleton.mp hop]
          refine ⟨?_, ?_⟩ <;> split <;> omega
      · simp
    · rw [if_neg hpe] at h
      obtain ⟨k, hk1, hk2, hk3, hk4⟩ :=
        stealGo_spec (srcBufOf st1.msource) trg st1.pending.reverse
          st1.moff st1.msize st1.pos
      rw [hk3] at h
      simp only [flushPending_eq] at h
      obtain ⟨os, rfl⟩ := growthCheck_ok_outsize _ _ _ h
      refine ⟨ops ++
        (if ((st1.pending.reverse.drop k).reverse).isEmpty then []
         else [DOp.dIns (st1.pending.reverse.drop k).reverse]) ++
        [DOp.dCopy ((st1.moff - k) + aggOf st1.msource)
          ((st1.msize + k) - (if st1.msize + k < 65536 then 0
            else st1.msize + k - 65536))], ?_, ?_, ?_⟩
      · simp [hout, opsBytes_append, opsBytes, encOp]
      · intro op hop
        rcases List.mem_append.mp hop with hop | hop
        · rcases List.mem_append.mp hop with hop | hop
          · exact hwf op hop
          · split at hop
            · simp at hop
            · rw [List.mem_singleton.mp hop]
              rename_i hne
              refine ⟨?_, ?_⟩
              · exact List.length_pos.mpr (by simpa using hne)
              · simp only [List.length_reverse, List.length_drop,
                  List.length_reverse]
                omega
        · rw [List.mem_singleton.mp hop]
          refine ⟨?_, ?_⟩ <;> split <;> omega
      · simp



theorem encStep_InvS (idx : DeltaIndex) (trg : Nat → Nat) (top ms : Nat)
    (hd : List Nat) (st st' : EncState)
    (h : encStep idx trg top ms st = .ok st') (hinv : InvS hd st) : InvS hd st' := by
  obtain ⟨ops, hout, hwf, hpl⟩ := hinv
  have hf := encProbe_fields idx trg top st
  exact encEmit_InvS trg ms hd _ st' h
    ⟨ops, by rw [hf.1, hout], hwf, by rw [hf.2.1]; exact hpl⟩

theorem encLoop_InvS (idx : DeltaIndex) (trg : Nat → Nat) (top ms : Nat)
    (hd : List Nat) :
    ∀ (fuel : Nat) (st st' : EncState),
      encLoop idx trg top ms fuel st = .ok st' → InvS hd st → InvS hd st' := by
  intro fuel
  induction fuel with
  | zero =>
    intro st st' h hinv
    injection h with h'
    exact h' ▸ hinv
  | succ fuel ih =>
    intro st st' h hinv
    rw [encLoop] at h
    split at h
    · rcases hstep : encStep idx trg top ms st with e | stm
      · rw [hstep] at h
        simp only [bind, Except.bind] at h
        exact Except.noConfusion h
      · rw [hstep] at h
        simp only [bind, Except.bind] at h
        exact ih stm st' h (encStep_InvS idx trg top ms hd st stm hstep hinv)
    · injection h with h'
      exact h' ▸ hinv

theorem create_delta_ok_structure (idx : DeltaIndex) (trg : Nat → Nat)
    (trg_size max_size : Nat) (out : List Nat)
    (h : create_delta (some idx) trg trg_size max_size = .ok out) :
    ∃ ops, out = varintEnc 32 (trg_size % 4294967296) ++ opsBytes ops ∧
      ∀ op ∈ ops, WFOp op := by
  unfold create_delta at h
  by_cases hts : trg_size = 0
  · rw [if_pos hts] at h
    exact absurd h (by simp)
  · rw [if_neg hts] at h
    simp only [] at h
    rcases hloop : encLoop idx trg trg_size max_size trg_size
        ⟨min RABIN_WINDOW trg_size, hashFrom trg 0 (min RABIN_WINDOW trg_size), 0, 0,
          none, varintEnc 32 (trg_size % 4294967296),
          (List.range (min RABIN_WINDOW trg_size)).map (fun k => byteAt trg k),
          if max_size ≠ 0 ∧ max_size ≤ 8192 then max_size + MAX_OP_SIZE + 1 else 8192⟩
      with e | stF
    · rw [hloop] at h
      rw [create_delta_post] at h
      exact Except.noConfusion h
    · rw [hloop] at h
      rw [create_delta_post] at h
      split at h
      · exact absurd h (by simp)
      · injection h with h'
        have hinv0 : InvS (varintEnc 32 (trg_size % 4294967296))
            ⟨min RABIN_WINDOW trg_size, hashFrom trg 0 (min RABIN_WINDOW trg_size),
              0, 0, none, varintEnc 32 (trg_size % 4294967296),
              (List.range (min RABIN_WINDOW trg_size)).map (fun k => byteAt trg k),
              if max_size ≠ 0 ∧ max_size ≤ 8192 then max_size + MAX_OP_SIZE + 1
              else 8192⟩ := by
          refine ⟨[], by simp [opsBytes], by simp, ?_⟩
          simp [RABIN_WINDOW]
        obtain ⟨ops, ho, hw, hp⟩ :=
          encLoop_InvS idx trg trg_size max_size _ _ _ stF hloop hinv0
        refine ⟨ops ++ (if stF.pending.isEmpty then [] else [DOp.dIns stF.pending]),
          ?_, ?_⟩
        · rw [← h', flushPending_eq, ho, opsBytes_append, List.append_assoc]
        · intro op hop
          rcases List.mem_append.mp hop with hop | hop
          · exact hw op hop
          · split at hop
            · simp at hop
            · rw [List.mem_singleton.mp hop]
              rename_i hne
              exact ⟨List.length_pos.mpr (by simpa using hne), by omega⟩

/-! ## Match verification, bucket-scan semantics, and index provenance -/

/-! ### Byte-level facts about the match verification loop -/

theorem commonLen_le (f g : Nat → Nat) : ∀ n i j, commonLen f g i j n ≤ n := by
  intro n
  induction n with
  | zero => intro i j; simp [commonLen]
  | succ n ih =>
    intro i j
    rw [commonLen]
    split
    · have := ih (i + 1) (j + 1)
      omega
    · omega

theorem commonLen_prefix (f g : Nat → Nat) :
    ∀ n i j k, k < commonLen f g i j n → byteAt f (i + k) = byteAt g (j + k) := by
  intro n
  induction n with
  | zero => intro i j k hk; simp [commonLen] at hk
  | succ n ih =>
    intro i j k hk
    rw [commonLen] at hk
    split at hk
    · rename_i heq
      match k with
      | 0 => simpa using heq
      | k + 1 =>
        have hh := ih (i + 1) (j + 1) k (by omega)
        have e1 : i + (k + 1) = i + 1 + k := by omega
        have e2 : j + (k + 1) = j + 1 + k := by omega
        rw [e1, e2]
        exact hh
    · omega

/-! ### The bucket scan returns verified matches -/

theorem scanBucket_good (S : SourceInfo) (trg : Nat → Nat) (top pos v : Nat) :
    ∀ (es : List IndexEntry) (msize moff : Nat) (msrc : Option SourceInfo),
      (∀ e ∈ es, e.src = S) →
      GoodMatch S trg pos msize moff msrc →
      pos + msize ≤ top →
      GoodMatch S trg pos (scanBucket trg top pos v es msize moff msrc).1
        (scanBucket trg top pos v es msize moff msrc).2.1
        (scanBucket trg top pos v es msize moff msrc).2.2 ∧
      pos + (scanBucket trg top pos v es msize moff msrc).1 ≤ top := by
  intro es
  induction es with
  | nil =>
    intro msize moff msrc hes hg hpm
    rw [scanBucket]
    exact ⟨hg, hpm⟩
  | cons e rest ih =>
    intro msize moff msrc hes hg hpm
    rw [scanBucket]
    split
    · exact ih msize moff msrc (fun x hx => hes x (List.mem_cons_of_mem e hx)) hg hpm
    · simp only []
      split
      · exact ⟨hg, hpm⟩
      · rename_i hrs
        have hsrc : e.src = S := hes e (List.mem_cons_self e rest)
        have hn_le := commonLen_le e.src.buf trg
          (min (e.src.size - e.ptrOff) (top - pos)) e.ptrOff pos
        split
        · rename_i hlt
          have hgood : GoodMatch S trg pos
              (commonLen e.src.buf trg e.ptrOff pos
                (min (e.src.size - e.ptrOff) (top - pos))) e.ptrOff (some e.src) := by
            right
            refine ⟨by rw [hsrc], ?_, ?_⟩
            · rw [← hsrc]
              omega
            · intro k hk
              rw [← hsrc]
              exact commonLen_prefix e.src.buf trg _ e.ptrOff pos k hk
          have hle_top : pos + commonLen e.src.buf trg e.ptrOff pos
              (min (e.src.size - e.ptrOff) (top - pos)) ≤ top := by
            omega
          split
          · exact ⟨hgood, hle_top⟩
          · exact ih _ _ _ (fun x hx => hes x (List.mem_cons_of_mem e hx)) hgood hle_top
        · exact ih msize moff msrc (fun x hx => hes x (List.mem_cons_of_mem e hx)) hg hpm

/-! ### Every entry of a freshly built index points into its source -/

theorem setHeadPtr_src (l : List IndexEntry) (p : Nat) :
    ∀ e ∈ setHeadPtr l p, ∃ e', e' ∈ l ∧ e.src = e'.src := by
  cases l with
  | nil => intro e he; simp [setHeadPtr] at he
  | cons x r =>
    intro e he
    rw [setHeadPtr] at he
    rcases List.mem_cons.mp he with rfl | he
    · exact ⟨x, List.mem_cons_self x r, rfl⟩
    · exact ⟨e, List.mem_cons_of_mem x he, rfl⟩

theorem buildLoop_src (src : SourceInfo) (stride hmask : Nat) :
    ∀ (count off : Nat) (st : BuildState),
      (∀ j, ∀ e ∈ st.hash j, e.src = src) →
      ∀ j, ∀ e ∈ (buildLoop src stride hmask count off st).hash j, e.src = src := by
  intro count
  induction count with
  | zero =>
    intro off st h
    rw [buildLoop]
    exact h
  | succ count ih =>
    intro off st h
    rw [buildLoop]
    apply ih
    split
    · intro j e he
      simp only [] at he
      split at he
      · obtain ⟨e', he', hsrc⟩ := setHeadPtr_src _ _ e he
        rw [hsrc]
        exact h _ _ he'
      · exact h j e he
    · intro j e he
      simp only [] at he
      split at he
      · rcases List.mem_cons.mp he with rfl | he
        · rfl
        · exact h _ _ he
      · exact h j e he

theorem cullInner_sub : ∀ (fuel : Nat) (a : Int) (l : List IndexEntry),
    ∀ e ∈ (cullInner fuel a l).2, e ∈ l := by
  intro fuel
  induction fuel with
  | zero => intro a l e he; exact he
  | succ fuel ih =>
    intro a l e he
    rw [cullInner] at he
    split at he
    · exact List.mem_of_mem_tail (ih _ _ e he)
    · exact List.mem_of_mem_tail he

theorem cullOuter_sub (d : Int) : ∀ (fuel : Nat) (acc : Int) (l : List IndexEntry),
    ∀ e ∈ cullOuter d fuel acc l, e ∈ l := by
  intro fuel
  induction fuel with
  | zero => intro acc l e he; simp [cullOuter] at he
  | succ fuel ih =>
    intro acc l e he
    rcases l with _ | ⟨x, rest⟩
    · simp [cullOuter] at he
    · rw [cullOuter] at he
      split at he
      · rcases List.mem_cons.mp he with rfl | he
        · exact List.mem_cons_self _ _
        · exact List.mem_cons_of_mem _
            (cullInner_sub _ _ _ e (ih _ _ e he))
      · rcases List.mem_cons.mp he with rfl | he
        · exact List.mem_cons_self _ _
        · exact List.mem_cons_of_mem _ (ih _ _ e he)

theorem limitGo_sub (hashCount : Nat → Nat) :
    ∀ (n i : Nat) (h : Nat → List IndexEntry) (eTot : Nat) (j : Nat),
      ∀ e ∈ (limitGo hashCount n i h eTot).1 j, e ∈ h j := by
  intro n
  induction n with
  | zero => intro i h eTot j e he; exact he
  | succ n ih =>
    intro i h eTot j e he
    rw [limitGo] at he
    split at he
    · exact ih _ _ _ _ e he
    · have hsub := ih _ _ _ _ e he
      by_cases hj : j = i
      · subst hj
        simp only [if_pos rfl] at hsub
        exact cullOuter_sub _ _ _ _ e hsub
      · simpa [hj] using hsub

theorem buildIndexResult_src (src : SourceInfo) (mb : Int) :
    ∀ i, ∀ e ∈ (buildIndexResult src none mb).buckets i, e.src = src := by
  intro i e he
  unfold buildIndexResult at he
  simp only [] at he
  rw [pack_delta_index] at he
  simp only [] at he
  split at he
  · simp only [List.nil_append] at he
    have h1 := limitGo_sub _ _ _ _ _ _ _ he
    exact buildLoop_src src _ _ _ _ _ (by intro j e' he'; simp at he') _ _ h1
  · simp at he


/-! ### Target-segment bookkeeping for the replay invariant -/

theorem rangeMap_add (trg : Nat → Nat) (a n m : Nat) :
    (List.range (n + m)).map (fun k => byteAt trg (a + k)) =
      (List.range n).map (fun k => byteAt trg (a + k)) ++
        (List.range m).map (fun k => byteAt trg (a + n + k)) := by
  rw [List.range_add, List.map_append, List.map_map]
  congr 1
  apply List.map_congr_left
  intro k hk
  simp only [Function.comp]
  congr 1
  omega

theorem rangeMap_take (trg : Nat → Nat) (a n t : Nat) (h : t ≤ n) :
    ((List.range n).map (fun k => byteAt trg (a + k))).take t =
      (List.range t).map (fun k => byteAt trg (a + k)) := by
  rw [← List.map_take, List.take_range, Nat.min_eq_left h]

theorem rangeMap_base (trg : Nat → Nat) (n : Nat) :
    (List.range n).map (byteAt trg) =
      (List.range n).map (fun k => byteAt trg (0 + k)) := by
  simp

theorem replayOps_append (srcRead : Nat → Nat) (a b : List DOp) :
    replayOps srcRead (a ++ b) = replayOps srcRead a ++ replayOps srcRead b := by
  induction a with
  | nil => simp [replayOps]
  | cons op rest ih => cases op <;> simp [replayOps, ih]

/-! ### Combining a verified match with the bytes stolen back from the
pending insert run -/

theorem steal_extends (S : SourceInfo) (trg : Nat → Nat) (pos msize moff k : Nat)
    (hk2 : k ≤ moff) (hkp : k ≤ pos)
    (horig : ∀ t, t < msize → byteAt S.buf (moff + t) = byteAt trg (pos + t))
    (hnew : ∀ t, t < k → byteAt S.buf (moff - t - 1) = byteAt trg (pos - t - 1)) :
    ∀ t, t < msize + k → byteAt S.buf (moff - k + t) = byteAt trg (pos - k + t) := by
  intro t ht
  by_cases htk : t < k
  · have hh := hnew (k - 1 - t) (by omega)
    have e1 : moff - (k - 1 - t) - 1 = moff - k + t := by omega
    have e2 : pos - (k - 1 - t) - 1 = pos - k + t := by omega
    rw [e1, e2] at hh
    exact hh
  · have hh := horig (t - k) (by omega)
    have e1 : moff + (t - k) = moff - k + t := by omega
    have e2 : pos + (t - k) = pos - k + t := by omega
    rw [e1, e2] at hh
    exact hh

theorem goodMatch_elim (S : SourceInfo) (trg : Nat → Nat)
    (pos msize moff : Nat) (msrc : Option SourceInfo)
    (hg : GoodMatch S trg pos msize moff msrc) (hms : 0 < msize) :
    msrc = some S ∧ moff + msize ≤ S.size ∧
      ∀ t, t < msize → byteAt S.buf (moff + t) = byteAt trg (pos + t) := by
  rcases hg with h0 | hh
  · omega
  · exact hh

/-! ## The C4 counterexample run -/

/-! ### The C4 counterexample: a single 65536-byte copy opcode -/

theorem except_bind_ok {α β γ : Type} (a : β) (f : β → Except α γ) :
    (Except.ok a >>= f) = f a := rfl

theorem commonLen_trgC (n : Nat) : ∀ i j, commonLen trgC trgC i j n = n := by
  induction n with
  | zero => intro i j; rfl
  | succ n ih =>
    intro i j
    simp [commonLen, byteAt, trgC, ih]

theorem scanBucket_one_big (trg : Nat → Nat) (top pos : Nat) (e : IndexEntry)
    (v msize moff : Nat) (msrc : Option SourceInfo)
    (hval : e.val = v)
    (hgt : msize < min (e.src.size - e.ptrOff) (top - pos))
    (hcl : commonLen e.src.buf trg e.ptrOff pos (min (e.src.size - e.ptrOff) (top - pos))
      = min (e.src.size - e.ptrOff) (top - pos))
    (hbig : 4096 ≤ min (e.src.size - e.ptrOff) (top - pos)) :
    scanBucket trg top pos v [e] msize moff msrc =
      (min (e.src.size - e.ptrOff) (top - pos), e.ptrOff, some e.src) := by
  rw [scanBucket]
  rw [if_neg (show ¬(e.val ≠ v) by simp [hval])]
  simp only [hcl]
  rw [if_neg (by omega), if_pos (by omega), if_pos hbig]

theorem cex_scan1 :
    scanBucket trgC 65556 16 Hc [⟨0, cexS, Hc⟩] 0 0 none = (65540, 0, some cexS) := by
  have h := scanBucket_one_big trgC 65556 16 ⟨0, cexS, Hc⟩ Hc 0 0 none rfl
    (by decide) (commonLen_trgC _ 0 16) (by decide)
  exact h.trans (by rfl)

theorem cex_probe1 :
    encProbe cexIdx trgC 65556 cexSt0 =
      ⟨16, Hc, 65540, 0, some cexS, [148, 128, 4], List.replicate 16 65, 8192⟩ := by
  unfold encProbe
  rw [if_pos (show cexSt0.msize < 4096 by decide)]
  simp only [cexSt0]
  have hv2 : rabinStep (Hc0 ^^^ U.getD (byteAt trgC (16 - RABIN_WINDOW)) 0)
      (byteAt trgC 16) = Hc := rfl
  simp only [hv2]
  rw [show cexIdx.buckets (Hc &&& cexIdx.hashMask) = [⟨0, cexS, Hc⟩] from rfl]
  rw [cex_scan1]

theorem cex_step1 : encStep cexIdx trgC 65556 0 cexSt0 = .ok cexSt1 := by
  unfold encStep
  rw [cex_probe1]
  rfl

theorem cex_step2 : encStep cexIdx trgC 65556 0 cexSt1 = .ok cexSt2 := by
  rfl

theorem cex_loop : encLoop cexIdx trgC 65556 0 65556 cexSt0 = .ok cexSt2 := by
  nth_rewrite 2 [show (65556 : Nat) = 65555 + 1 from by norm_num]
  rw [encLoop]
  rw [if_pos (show cexSt0.pos < 65556 by decide)]
  rw [cex_step1]
  rw [except_bind_ok]
  rw [show (65555 : Nat) = 65554 + 1 from by norm_num]
  rw [encLoop]
  rw [if_pos (show cexSt1.pos < 65556 by decide)]
  rw [cex_step2]
  rw [except_bind_ok]
  rw [show (65554 : Nat) = 65553 + 1 from by norm_num]
  rw [encLoop]
  rw [if_neg (show ¬(cexSt2.pos < 65556) by decide)]

theorem create_delta_eq (idx : DeltaIndex) (trg : Nat → Nat)
    (trg_size max_size : Nat) (h : ¬(trg_size = 0)) :
    create_delta (some idx) trg trg_size max_size =
      create_delta_post max_size (encLoop idx trg trg_size max_size trg_size
        ⟨min RABIN_WINDOW trg_size, hashFrom trg 0 (min RABIN_WINDOW trg_size), 0, 0,
          none, varintEnc 32 (trg_size % 4294967296),
          (List.range (min RABIN_WINDOW trg_size)).map (fun k => byteAt trg k),
          if max_size ≠ 0 ∧ max_size ≤ 8192 then max_size + MAX_OP_SIZE + 1
          else 8192⟩) := by
  unfold create_delta
  rw [if_neg h]

theorem cex_run : create_delta (some cexIdx) trgC 65556 0 = .ok cexOut := by
  rw [create_delta_eq cexIdx trgC 65556 0 (by norm_num)]
  rw [show (⟨min RABIN_WINDOW 65556, hashFrom trgC 0 (min RABIN_WINDOW 65556), 0, 0,
      none, varintEnc 32 (65556 % 4294967296),
      (List.range (min RABIN_WINDOW 65556)).map (fun k => byteAt trgC k),
      if (0 : Nat) ≠ 0 ∧ (0 : Nat) ≤ 8192 then 0 + MAX_OP_SIZE + 1 else 8192⟩ :
      EncState) = cexSt0 from rfl]
  rw [cex_loop]
  rfl

/-! ## Claims C2, C3, C4 -/

set_option maxRecDepth 8192 in
/-! ### Semantic invariant of the encoder: match provenance and replay -/

theorem growthCheck_exists (st : EncState) (P : EncState → Prop)
    (h : ∀ os, P { st with outsize := os }) :
    ∃ st', growthCheck 0 st = .ok st' ∧ P st' := by
  obtain ⟨os, hgc⟩ := growthCheck_zero st
  exact ⟨_, hgc, h os⟩

theorem rangeMap_split (trg : Nat → Nat) (p M : Nat) :
    (List.range (p + M)).map (byteAt trg) =
      (List.range p).map (byteAt trg) ++
        (List.range M).map (fun j => byteAt trg (p + j)) := by
  rw [rangeMap_base trg (p + M), rangeMap_add trg 0 p M, ← rangeMap_base]
  congr 1
  apply List.map_congr_left
  intro j hj
  congr 1
  omega

theorem encProbe_InvR (S : SourceInfo) (idx : DeltaIndex) (trg : Nat → Nat)
    (top : Nat) (hd : List Nat)
    (hidx : ∀ i, ∀ e ∈ idx.buckets i, e.src = S)
    (st : EncState) (hinv : InvR S trg top hd st) :
    InvR S trg top hd (encProbe idx trg top st) := by
  obtain ⟨ops, hout, hwf, hp126, hppos, hpt, hpmt, hg, hrep, hpend⟩ := hinv
  unfold encProbe
  split
  · simp only []
    have hsg := scanBucket_good S trg top st.pos
      (rabinStep (st.val ^^^ U.getD (byteAt trg (st.pos - RABIN_WINDOW)) 0)
        (byteAt trg st.pos))
      (idx.buckets
        ((rabinStep (st.val ^^^ U.getD (byteAt trg (st.pos - RABIN_WINDOW)) 0)
          (byteAt trg st.pos)) &&& idx.hashMask))
      st.msize st.moff st.msource (hidx _) hg hpmt
    exact ⟨ops, hout, hwf, hp126, hppos, hpt, hsg.2, hsg.1, hrep, hpend⟩
  · exact ⟨ops, hout, hwf, hp126, hppos, hpt, hpmt, hg, hrep, hpend⟩

theorem encEmit_InvR (S : SourceInfo) (trg : Nat → Nat) (top : Nat) (hd : List Nat)
    (hagg : S.aggOffset = 0) (h32 : S.size ≤ 4294967296)
    (st1 : EncState) (hpos : st1.pos < top)
    (hinv : InvR S trg top hd st1) :
    ∃ st', encEmit trg 0 st1 = .ok st' ∧ InvR S trg top hd st' ∧ st1.pos < st'.pos := by
  obtain ⟨ops, hout, hwf, hp126, hppos, hpt, hpmt, hg, hrep, hpend⟩ := hinv
  unfold encEmit
  by_cases h4 : st1.msize < 4
  · rw [if_pos h4]
    simp only []
    have hext : (List.range (st1.pending.length + 1)).map
        (fun k => byteAt trg (st1.pos - st1.pending.length + k)) =
        st1.pending ++ [byteAt trg st1.pos] := by
      rw [List.range_succ, List.map_append]
      congr 1
      · exact hpend.symm
      · simp only [List.map_cons, List.map_nil]
        congr 2
        omega
    have hsplit : (List.range (st1.pos + 1)).map (byteAt trg) =
        (List.range (st1.pos - st1.pending.length)).map (byteAt trg) ++
          (st1.pending ++ [byteAt trg st1.pos]) := by
      rw [rangeMap_base, show st1.pos + 1 =
          (st1.pos - st1.pending.length) + (st1.pending.length + 1) by omega,
        rangeMap_add, ← rangeMap_base]
      congr 1
      rw [← hext]
      apply List.map_congr_left
      intro k hk
      congr 1
      omega
    by_cases hlen : (st1.pending ++ [byteAt trg st1.pos]).length = 127
    · rw [if_pos hlen]
      refine growthCheck_exists _ _ ?_
      intro os
      constructor
      · refine ⟨ops ++ [DOp.dIns (st1.pending ++ [byteAt trg st1.pos])],
          ?_, ?_, ?_, ?_, ?_, ?_, ?_, ?_, ?_⟩
        · simp [hout, opsBytes_append, opsBytes, encOp, hlen, List.append_assoc]
        · intro op hop
          rcases List.mem_append.mp hop with hop | hop
          · exact hwf op hop
          · rw [List.mem_singleton.mp hop]
            exact ⟨by simp, by simp [hlen]⟩
        · simp
        · simp
        · simp only []
          omega
        · simp only []
          omega
        · exact Or.inl rfl
        · simp only [List.length_nil, Nat.sub_zero, List.map_append,
            replayOps_append]
          rw [hrep]
          simp only [List.map_cons, List.map_nil, normOp, replayOps,
            List.append_nil]
          exact hsplit.symm
        · simp
      · simp only []
        omega
    · rw [if_neg hlen]
      refine growthCheck_exists _ _ ?_
      intro os
      constructor
      · refine ⟨ops, ?_, hwf, ?_, ?_, ?_, ?_, ?_, ?_, ?_⟩
        · simpa using hout
        · simp only [List.length_append, List.length_singleton]
          simp only [List.length_append, List.length_singleton] at hlen
          omega
        · simp only [List.length_append, List.length_singleton]
          omega
        · simp only []
          omega
        · simp only []
          omega
        · exact Or.inl rfl
        · simp only [List.length_append, List.length_singleton]
          rw [show st1.pos + 1 - (st1.pending.length + 1) =
            st1.pos - st1.pending.length from by omega]
          exact hrep
        · simp only [List.length_append, List.length_singleton]
          rw [show st1.pos + 1 - (st1.pending.length + 1) =
            st1.pos - st1.pending.length from by omega]
          exact hext.symm
      · simp only []
        omega
  · rw [if_neg h4]
    simp only []
    have hgE := goodMatch_elim S trg st1.pos st1.msize st1.moff st1.msource hg
      (by omega)
    have hmofflt : st1.moff < 4294967296 := by
      have := hgE.2.1
      omega
    by_cases hpe : st1.pending.isEmpty
    · rw [if_pos hpe]
      have hpnil : st1.pending = [] := by
        cases hE : st1.pending with
        | nil => rfl
        | cons a b => rw [hE] at hpe; simp [List.isEmpty] at hpe
      simp only [List.reverse_nil, flushPending_nil]
      refine growthCheck_exists _ _ ?_
      intro os
      have hLle : (if st1.msize < 65536 then 0 else st1.msize - 65536) ≤
          st1.msize - 4 := by
        split <;> omega
      constructor
      · refine ⟨ops ++ [DOp.dCopy (st1.moff + aggOf st1.msource)
          (st1.msize - (if st1.msize < 65536 then 0 else st1.msize - 65536))],
          ?_, ?_, ?_, ?_, ?_, ?_, ?_, ?_, ?_⟩
        · simp [hout, opsBytes_append, opsBytes, encOp, List.append_assoc]
        · intro op hop
          rcases List.mem_append.mp hop with hop | hop
          · exact hwf op hop
          · rw [List.mem_singleton.mp hop]
            refine ⟨?_, ?_⟩ <;> split <;> omega
        · simp
        · simp
        · simp only []
          omega
        · simp only []
          omega
        · by_cases hL0 : (if st1.msize < 65536 then 0 else st1.msize - 65536) = 0
          · exact Or.inl hL0
          · refine Or.inr ⟨hgE.1, ?_, ?_⟩
            · simp only []
              omega
            intro t ht
            simp only [] at ht
            have hh := hgE.2.2
              ((st1.msize - (if st1.msize < 65536 then 0 else st1.msize - 65536)) + t)
              (by omega)
            have e1 : st1.moff +
                ((st1.msize - (if st1.msize < 65536 then 0 else st1.msize - 65536)) + t) =
                st1.moff +
                  (st1.msize - (if st1.msize < 65536 then 0 else st1.msize - 65536)) + t := by
              omega
            have e2 : st1.pos +
                ((st1.msize - (if st1.msize < 65536 then 0 else st1.msize - 65536)) + t) =
                st1.pos +
                  (st1.msize - (if st1.msize < 65536 then 0 else st1.msize - 65536)) + t := by
              omega
            rw [e1, e2] at hh
            exact hh
        · simp only [List.length_nil, Nat.sub_zero, List.map_append,
            replayOps_append]
          rw [hrep, hpnil]
          simp only [List.length_nil, Nat.sub_zero]
          have hagg2 : aggOf st1.msource = 0 := by
            rw [hgE.1]
            simp [aggOf, hagg]
          simp only [List.map_cons, List.map_nil, normOp, replayOps,
            List.append_nil, hagg2, Nat.add_zero, Nat.mod_eq_of_lt hmofflt]
          have hbytes : (List.range
              (st1.msize - (if st1.msize < 65536 then 0 else st1.msize - 65536))).map
                (fun j => byteAt S.buf (st1.moff + j)) =
              (List.range
              (st1.msize - (if st1.msize < 65536 then 0 else st1.msize - 65536))).map
                (fun j => byteAt trg (st1.pos + j)) := by
            apply List.map_congr_left
            intro j hj
            simp only [List.mem_range] at hj
            exact hgE.2.2 j (by omega)
          rw [hbytes, rangeMap_split trg st1.pos
            (st1.msize - (if st1.msize < 65536 then 0 else st1.msize - 65536))]
        · simp
      · simp only []
        omega
    · rw [if_neg hpe]
      obtain ⟨k, hk1, hk2, hk3, hk4⟩ := stealGo_spec (srcBufOf st1.msource) trg
        st1.pending.reverse st1.moff st1.msize st1.pos
      rw [hk3]
      simp only []
      have hk1' : k ≤ st1.pending.length := by
        simpa using hk1
      have hkpos : k ≤ st1.pos := by omega
      have hk4' : ∀ t, t < k →
          byteAt S.buf (st1.moff - t - 1) = byteAt trg (st1.pos - t - 1) := by
        rw [hgE.1] at hk4
        simpa [srcBufOf] using hk4
      have hsteal := steal_extends S trg st1.pos st1.msize st1.moff k hk2 hkpos
        hgE.2.2 hk4'
      have hfrem : (st1.pending.reverse.drop k).reverse =
          st1.pending.take (st1.pending.length - k) := by
        have h1 : st1.pending.length - (st1.pending.length - k) = k := by omega
        have h2 := @List.reverse_take _ st1.pending (st1.pending.length - k)
        rw [h1] at h2
        rw [← h2, List.reverse_reverse]
      have hfremseg : st1.pending.take (st1.pending.length - k) =
          (List.range (st1.pending.length - k)).map
            (fun j => byteAt trg (st1.pos - st1.pending.length + j)) := by
        nth_rewrite 2 [hpend]
        rw [rangeMap_take trg (st1.pos - st1.pending.length) st1.pending.length
          (st1.pending.length - k) (by omega)]
      have hLle : (if st1.msize + k < 65536 then 0 else st1.msize + k - 65536) ≤
          st1.msize + k - 4 := by
        split <;> omega
      have hk126 : k ≤ 126 := by omega
      have hem : k < (st1.msize + k) -
          (if st1.msize + k < 65536 then 0 else st1.msize + k - 65536) := by
        split <;> omega
      refine growthCheck_exists _ _ ?_
      intro os
      constructor
      · refine ⟨ops ++
          (if ((st1.pending.reverse.drop k).reverse).isEmpty then []
           else [DOp.dIns (st1.pending.reverse.drop k).reverse]) ++
          [DOp.dCopy ((st1.moff - k) + aggOf st1.msource)
            ((st1.msize + k) -
              (if st1.msize + k < 65536 then 0 else st1.msize + k - 65536))],
          ?_, ?_, ?_, ?_, ?_, ?_, ?_, ?_, ?_⟩
        · rw [flushPending_eq]
          simp only [hout, opsBytes_append, opsBytes, encOp, List.append_assoc,
            List.append_nil]
        · intro op hop
          rcases List.mem_append.mp hop with hop | hop
          · rcases List.mem_append.mp hop with hop | hop
            · exact hwf op hop
            · split at hop
              · simp at hop
              · rw [List.mem_singleton.mp hop]
                rename_i hne
                refine ⟨List.length_pos.mpr (by simpa using hne), ?_⟩
                simp only [List.length_reverse, List.length_drop,
                  List.length_reverse]
                omega
          · rw [List.mem_singleton.mp hop]
            refine ⟨?_, ?_⟩ <;> split <;> omega
        · simp
        · simp
        · simp only []
          omega
        · simp only []
          omega
        · by_cases hL0 : (if st1.msize + k < 65536 then 0 else st1.msize + k - 65536) = 0
          · exact Or.inl hL0
          · refine Or.inr ⟨hgE.1, ?_, ?_⟩
            · simp only []
              omega
            intro t ht
            simp only [] at ht
            have hh := hsteal
              (((st1.msize + k) -
                (if st1.msize + k < 65536 then 0 else st1.msize + k - 65536)) + t)
              (by omega)
            have e1 : st1.moff - k +
                (((st1.msize + k) -
                  (if st1.msize + k < 65536 then 0 else st1.msize + k - 65536)) + t) =
                st1.moff - k +
                  ((st1.msize + k) -
                    (if st1.msize + k < 65536 then 0 else st1.msize + k - 65536)) + t := by
              omega
            have e2 : st1.pos - k +
                (((st1.msize + k) -
                  (if st1.msize + k < 65536 then 0 else st1.msize + k - 65536)) + t) =
                st1.pos - k +
                  ((st1.msize + k) -
                    (if st1.msize + k < 65536 then 0 else st1.msize + k - 65536)) + t := by
              omega
            rw [e1, e2] at hh
            exact hh
        · simp only [List.length_nil, Nat.sub_zero, List.map_append,
            replayOps_append]
          rw [hrep]
          have hagg2 : aggOf st1.msource = 0 := by
            rw [hgE.1]
            simp [aggOf, hagg]
          have hmofflt2 : st1.moff - k < 4294967296 := by omega
          simp only [List.map_cons, List.map_nil, normOp, replayOps,
            List.append_nil, hagg2, Nat.add_zero, Nat.mod_eq_of_lt hmofflt2]
          have hbytes : (List.range
              ((st1.msize + k) -
                (if st1.msize + k < 65536 then 0 else st1.msize + k - 65536))).map
                (fun j => byteAt S.buf (st1.moff - k + j)) =
              (List.range
              ((st1.msize + k) -
                (if st1.msize + k < 65536 then 0 else st1.msize + k - 65536))).map
                (fun j => byteAt trg (st1.pos - k + j)) := by
            apply List.map_congr_left
            intro j hj
            simp only [List.mem_range] at hj
            exact hsteal j (by omega)
          rw [hbytes]
          by_cases hfe : ((st1.pending.reverse.drop k).reverse).isEmpty
          · have hkp : st1.pending.length - k = 0 := by
              have : (st1.pending.reverse.drop k).reverse.length = 0 := by
                cases hE : (st1.pending.reverse.drop k).reverse with
                | nil => simp [hE]
                | cons a b => rw [hE] at hfe; simp [List.isEmpty] at hfe
              rw [hfrem] at this
              simp only [List.length_take] at this
              omega
            rw [if_pos hfe]
            have hppk : st1.pos - st1.pending.length = st1.pos - k := by omega
            simp only [List.map_nil, replayOps, List.nil_append, List.append_nil, hppk]
            rw [rangeMap_split trg (st1.pos - k)
              ((st1.msize + k) -
                (if st1.msize + k < 65536 then 0 else st1.msize + k - 65536))]
          · rw [if_neg hfe]
            simp only [List.map_cons, List.map_nil, normOp, replayOps,
              List.append_nil]
            rw [hfrem, hfremseg]
            rw [show (List.range
                ((st1.pos - k) +
                  ((st1.msize + k) -
                    (if st1.msize + k < 65536 then 0 else st1.msize + k - 65536)))).map
                (byteAt trg) =
              (List.range ((st1.pos - st1.pending.length) +
                ((st1.pending.length - k) +
                  ((st1.msize + k) -
                    (if st1.msize + k < 65536 then 0 else st1.msize + k - 65536))))).map
                (byteAt trg) from by
              congr 2
              omega]
            rw [rangeMap_split trg (st1.pos - st1.pending.length)
              ((st1.pending.length - k) +
                ((st1.msize + k) -
                  (if st1.msize + k < 65536 then 0 else st1.msize + k - 65536)))]
            rw [rangeMap_add trg (st1.pos - st1.pending.length) (st1.pending.length - k)
              ((st1.msize + k) -
                (if st1.msize + k < 65536 then 0 else st1.msize + k - 65536))]
            rw [← List.append_assoc]
            congr 1
            apply List.map_congr_left
            intro j hj
            congr 1
            omega
        · simp
      · simp only []
        omega


theorem encStep_InvR (S : SourceInfo) (idx : DeltaIndex) (trg : Nat → Nat)
    (top : Nat) (hd : List Nat)
    (hidx : ∀ i, ∀ e ∈ idx.buckets i, e.src = S)
    (hagg : S.aggOffset = 0) (h32 : S.size ≤ 4294967296)
    (st : EncState) (hpos : st.pos < top) (hinv : InvR S trg top hd st) :
    ∃ st', encStep idx trg top 0 st = .ok st' ∧ InvR S trg top hd st' ∧
      st.pos < st'.pos := by
  have h1 := encProbe_InvR S idx trg top hd hidx st hinv
  have hpp := (encProbe_fields idx trg top st).2.2.1
  obtain ⟨st', he, hi, hlt⟩ := encEmit_InvR S trg top hd hagg h32
    (encProbe idx trg top st) (by rw [hpp]; exact hpos) h1
  rw [hpp] at hlt
  exact ⟨st', he, hi, hlt⟩

theorem encLoop_InvR (S : SourceInfo) (idx : DeltaIndex) (trg : Nat → Nat)
    (top : Nat) (hd : List Nat)
    (hidx : ∀ i, ∀ e ∈ idx.buckets i, e.src = S)
    (hagg : S.aggOffset = 0) (h32 : S.size ≤ 4294967296) :
    ∀ (fuel : Nat) (st : EncState), InvR S trg top hd st → top - st.pos ≤ fuel →
      ∃ st', encLoop idx trg top 0 fuel st = .ok st' ∧ InvR S trg top hd st' ∧
        st'.pos = top := by
  intro fuel
  induction fuel with
  | zero =>
    intro st hinv hf
    have hpt : st.pos ≤ top := hinv.choose_spec.2.2.2.2.1
    exact ⟨st, rfl, hinv, by omega⟩
  | succ fuel ih =>
    intro st hinv hf
    by_cases hp : st.pos < top
    · obtain ⟨st1, hs, hi1, hlt⟩ := encStep_InvR S idx trg top hd hidx hagg h32 st hp hinv
      obtain ⟨st', hl, hi', hp'⟩ := ih st1 hi1 (by omega)
      refine ⟨st', ?_, hi', hp'⟩
      rw [encLoop, if_pos hp, hs, except_bind_ok, hl]
    · have hpt : st.pos ≤ top := hinv.choose_spec.2.2.2.2.1
      refine ⟨st, ?_, hinv, by omega⟩
      rw [encLoop, if_neg hp]

theorem create_delta_post_zero (st : EncState) :
    create_delta_post 0 (.ok st) = .ok (flushPending st.out st.pending) := by
  rw [create_delta_post]
  simp

theorem create_delta_decode (S : SourceInfo) (idx : DeltaIndex) (trg : Nat → Nat)
    (m : Nat) (hm : 0 < m)
    (hidx : ∀ i, ∀ e ∈ idx.buckets i, e.src = S)
    (hagg : S.aggOffset = 0) (h32 : S.size ≤ 4294967296) :
    ∃ out, create_delta (some idx) trg m 0 = .ok out ∧
      decode_delta S.buf out = some (m % 4294967296, (List.range m).map (byteAt trg)) := by
  have heq := create_delta_eq idx trg m 0 (by omega)
  have hinv0 : InvR S trg m (varintEnc 32 (m % 4294967296))
      ⟨min RABIN_WINDOW m, hashFrom trg 0 (min RABIN_WINDOW m), 0, 0,
        none, varintEnc 32 (m % 4294967296),
        (List.range (min RABIN_WINDOW m)).map (fun k => byteAt trg k),
        if (0:Nat) ≠ 0 ∧ (0:Nat) ≤ 8192 then 0 + MAX_OP_SIZE + 1
        else 8192⟩ := by
    refine ⟨[], by simp [opsBytes], by simp, ?_, ?_, ?_, ?_, Or.inl rfl, ?_, ?_⟩
    · simp only [List.length_map, List.length_range, RABIN_WINDOW]
      omega
    · simp only [List.length_map, List.length_range]
      omega
    · simp only []
      omega
    · simp only []
      omega
    · simp [replayOps]
    · simp only [List.length_map, List.length_range]
      apply List.map_congr_left
      intro k hk
      congr 1
      omega
  obtain ⟨stF, hloop, hinvF, hposF⟩ := encLoop_InvR S idx trg m
    (varintEnc 32 (m % 4294967296)) hidx hagg h32 m _ hinv0
    (by simp only []; omega)
  rw [hloop, create_delta_post_zero] at heq
  obtain ⟨ops, hout, hwf, hp126, hppos, hpt, hpmt, hg, hrep, hpend⟩ := hinvF
  refine ⟨flushPending stF.out stF.pending, heq, ?_⟩
  rw [flushPending_eq, hout, List.append_assoc, ← opsBytes_append]
  have hwfAll : ∀ op ∈ ops ++ (if stF.pending.isEmpty then []
      else [DOp.dIns stF.pending]), WFOp op := by
    intro op hop
    rcases List.mem_append.mp hop with hop | hop
    · exact hwf op hop
    · split at hop
      · simp at hop
      · rename_i hne
        rw [List.mem_singleton.mp hop]
        refine ⟨?_, by omega⟩
        cases hE : stF.pending with
        | nil => rw [hE] at hne; simp [List.isEmpty] at hne
        | cons a b => simp [hE]
  have hparse := parseVarint_enc 32 (m % 4294967296)
    (by
      have ha : m % 4294967296 < 4294967296 := Nat.mod_lt _ (by norm_num)
      have hbd : (4294967296 : Nat) ≤ 2 ^ (7 * 32 + 7) := by norm_num
      omega)
    (opsBytes (ops ++ (if stF.pending.isEmpty then [] else [DOp.dIns stF.pending])))
  have hops := parseOps_opsBytes
    (ops ++ (if stF.pending.isEmpty then [] else [DOp.dIns stF.pending])) hwfAll
    (opsBytes (ops ++ (if stF.pending.isEmpty then []
      else [DOp.dIns stF.pending]))).length
    (length_le_opsBytes _)
  unfold decode_delta
  rw [hparse]
  simp only [bind, Option.bind]
  rw [hops]
  simp only [Option.bind]
  refine congrArg some (congrArg (Prod.mk (m % 4294967296)) ?_)
  rw [List.map_append, replayOps_append, hrep, hposF]
  by_cases hpe : stF.pending.isEmpty
  · have hpnil : stF.pending = [] := by
      cases hE : stF.pending with
      | nil => rfl
      | cons a b => rw [hE] at hpe; simp [List.isEmpty] at hpe
    rw [if_pos hpe, hpnil]
    simp [replayOps]
  · rw [if_neg hpe]
    simp only [List.map_cons, List.map_nil, normOp, replayOps, List.append_nil]
    have hmm : m - stF.pending.length + stF.pending.length = m := by omega
    have hR := rangeMap_split trg (m - stF.pending.length) stF.pending.length
    rw [hmm] at hR
    rw [hR]
    congr 1
    rw [hposF] at hpend
    exact hpend

theorem buildIndex_ok (f : Nat → Nat) (n : Nat) (hn : 0 < n) :
    create_delta_index ⟨f, n, 0⟩ none 0 = .ok (buildIndexResult ⟨f, n, 0⟩ none 0) := by
  unfold create_delta_index
  rw [if_neg (by simp only []; omega)]

theorem create_delta_parses (index : DeltaIndex) (trg : Nat → Nat)
    (trg_size max_size : Nat) (out : List Nat)
    (h : create_delta (some index) trg trg_size max_size = .ok out) :
    ∃ (v : Nat) (rest : List Nat) (ops : List DOp), parseVarint out = some (v, rest) ∧
      parseOps rest.length rest = some (ops.map normOp) ∧
      ∀ op ∈ ops, WFOp op := by
  obtain ⟨ops, hout, hwf⟩ := create_delta_ok_structure index trg trg_size max_size out h
  refine ⟨trg_size % 4294967296, opsBytes ops, ops, ?_, ?_, hwf⟩
  · rw [hout]
    refine parseVarint_enc 32 _ ?_ _
    have ha : trg_size % 4294967296 < 4294967296 := Nat.mod_lt _ (by norm_num)
    have hbd : (4294967296 : Nat) ≤ 2 ^ (7 * 32 + 7) := by norm_num
    omega
  · exact parseOps_opsBytes ops hwf _ (length_le_opsBytes ops)

/-- Claim C2: in every opcode stream returned successfully by `create_delta`,
every copy opcode encodes a copy length of at least 4 bytes (a best match
shorter than 4 bytes is folded into the pending insert run instead). -/
theorem c2_copy_min_length (index : DeltaIndex) (trg : Nat → Nat)
    (trg_size max_size : Nat) (out : List Nat)
    (h : create_delta (some index) trg trg_size max_size = .ok out) :
    ∃ v rest ops, parseVarint out = some (v, rest) ∧
      parseOps rest.length rest = some ops ∧
      ∀ off len, DOp.dCopy off len ∈ ops → 4 ≤ len := by
  obtain ⟨v, rest, ops, hv, hops, hwf⟩ :=
    create_delta_parses index trg trg_size max_size out h
  refine ⟨v, rest, ops.map normOp, hv, hops, ?_⟩
  intro off len hmem
  obtain ⟨op, hop, hnorm⟩ := List.mem_map.mp hmem
  cases op with
  | dIns bs => simp [normOp] at hnorm
  | dCopy o l =>
    have hw : 4 ≤ l ∧ l ≤ 65536 := hwf _ hop
    simp only [normOp] at hnorm
    injection hnorm with h1 h2
    omega

/-- Witness for C2 at a concrete index and 2-byte target. -/
theorem c2_copy_min_length_witness :
    create_delta (some ⟨0, 0, fun _ => [], fun _ => 0, none⟩) (fun _ => 0) 2 0 =
      .ok [2, 2, 0, 0] ∧
    (∃ v rest ops, parseVarint [2, 2, 0, 0] = some (v, rest) ∧
      parseOps rest.length rest = some ops ∧
      ∀ off len, DOp.dCopy off len ∈ ops → 4 ≤ len) :=
  ⟨rfl, c2_copy_min_length ⟨0, 0, fun _ => [], fun _ => 0, none⟩ (fun _ => 0) 2 0
    [2, 2, 0, 0] rfl⟩

/-- Claim C3: in every opcode stream returned successfully by `create_delta`,
every insert opcode carries between 1 and 127 literal bytes (its count byte
is in `[1, 127]`); this holds across run flushes and the copy steal-back. -/
theorem c3_insert_count_range (index : DeltaIndex) (trg : Nat → Nat)
    (trg_size max_size : Nat) (out : List Nat)
    (h : create_delta (some index) trg trg_size max_size = .ok out) :
    ∃ v rest ops, parseVarint out = some (v, rest) ∧
      parseOps rest.length rest = some ops ∧
      ∀ bs, DOp.dIns bs ∈ ops → 1 ≤ bs.length ∧ bs.length ≤ 127 := by
  obtain ⟨v, rest, ops, hv, hops, hwf⟩ :=
    create_delta_parses index trg trg_size max_size out h
  refine ⟨v, rest, ops.map normOp, hv, hops, ?_⟩
  intro bs hmem
  obtain ⟨op, hop, hnorm⟩ := List.mem_map.mp hmem
  cases op with
  | dIns bs' =>
    have hw : 1 ≤ bs'.length ∧ bs'.length ≤ 127 := hwf _ hop
    simp only [normOp] at hnorm
    injection hnorm with h1
    rw [← h1]
    exact hw
  | dCopy o l => simp [normOp] at hnorm

/-- Witness for C3 at a concrete index and 2-byte target. -/
theorem c3_insert_count_range_witness :
    create_delta (some ⟨0, 0, fun _ => [], fun _ => 0, none⟩) (fun _ => 0) 2 0 =
      .ok [2, 2, 0, 0] ∧
    (∃ v rest ops, parseVarint [2, 2, 0, 0] = some (v, rest) ∧
      parseOps rest.length rest = some ops ∧
      ∀ bs, DOp.dIns bs ∈ ops → 1 ≤ bs.length ∧ bs.length ≤ 127) :=
  ⟨rfl, c3_insert_count_range ⟨0, 0, fun _ => [], fun _ => 0, none⟩ (fun _ => 0) 2 0
    [2, 2, 0, 0] rfl⟩

/-- Claim C4, amended: every copy opcode returned by `create_delta` covers at
most 65536 bytes (the split threshold is 65536, not 65535: a match of
exactly 65536 bytes is emitted as one copy with a zero length field). -/
theorem c4_copy_max_length (index : DeltaIndex) (trg : Nat → Nat)
    (trg_size max_size : Nat) (out : List Nat)
    (h : create_delta (some index) trg trg_size max_size = .ok out) :
    ∃ v rest ops, parseVarint out = some (v, rest) ∧
      parseOps rest.length rest = some ops ∧
      ∀ off len, DOp.dCopy off len ∈ ops → len ≤ 65536 := by
  obtain ⟨v, rest, ops, hv, hops, hwf⟩ :=
    create_delta_parses index trg trg_size max_size out h
  refine ⟨v, rest, ops.map normOp, hv, hops, ?_⟩
  intro off len hmem
  obtain ⟨op, hop, hnorm⟩ := List.mem_map.mp hmem
  cases op with
  | dIns bs => simp [normOp] at hnorm
  | dCopy o l =>
    have hw : 4 ≤ l ∧ l ≤ 65536 := hwf _ hop
    simp only [normOp] at hnorm
    injection hnorm with h1 h2
    omega

/-- Witness for the amended C4 at a concrete index and 2-byte target. -/
theorem c4_copy_max_length_witness :
    create_delta (some ⟨0, 0, fun _ => [], fun _ => 0, none⟩) (fun _ => 0) 2 0 =
      .ok [2, 2, 0, 0] ∧
    (∃ v rest ops, parseVarint [2, 2, 0, 0] = some (v, rest) ∧
      parseOps rest.length rest = some ops ∧
      ∀ off len, DOp.dCopy off len ∈ ops → len ≤ 65536) :=
  ⟨rfl, c4_copy_max_length ⟨0, 0, fun _ => [], fun _ => 0, none⟩ (fun _ => 0) 2 0
    [2, 2, 0, 0] rfl⟩

/-- Counterexample to C4 as stated: on a 65556-byte constant target against
a one-entry index over a 65540-byte constant source, `create_delta` emits a
single copy opcode covering 65536 bytes (the byte `0x80`, all length bits
zero), exceeding the claimed 65535-byte maximum. -/
theorem c4_counterexample :
    ∃ out v rest ops,
      create_delta (some cexIdx) trgC 65556 0 = .ok out ∧
      parseVarint out = some (v, rest) ∧
      parseOps rest.length rest = some ops ∧
      DOp.dCopy 0 65536 ∈ ops := by
  refine ⟨cexOut, 65556, 16 :: (List.replicate 16 65 ++ [128, 148, 1, 4]),
    [DOp.dIns (List.replicate 16 65), DOp.dCopy 0 65536, DOp.dCopy 65536 4],
    cex_run, ?_, ?_, ?_⟩ <;> decide

/-- Claim C1: decoding the opcode stream returned by
`create_delta (create_delta_index S) T` — a varint target-length header
followed by insert ops copying their literal bytes and copy ops copying
`length` bytes of the source at `offset` — reconstructs exactly the target
bytes, for every non-empty source (of 32-bit-addressable size, as the C's
`unsigned int` sizes assume) and non-empty target. -/
theorem c1_roundtrip (f : Nat → Nat) (n : Nat) (g : Nat → Nat) (m : Nat)
    (hn : 0 < n) (hm : 0 < m) (h32 : n ≤ 4294967296) :
    ∃ idx out, create_delta_index ⟨f, n, 0⟩ none 0 = .ok idx ∧
      create_delta (some idx) g m 0 = .ok out ∧
      decode_delta f out = some (m % 4294967296, (List.range m).map (byteAt g)) := by
  have hidx : ∀ i, ∀ e ∈ (buildIndexResult ⟨f, n, 0⟩ none 0).buckets i,
      e.src = (⟨f, n, 0⟩ : SourceInfo) := buildIndexResult_src ⟨f, n, 0⟩ 0
  obtain ⟨out, hcd, hdec⟩ := create_delta_decode ⟨f, n, 0⟩
    (buildIndexResult ⟨f, n, 0⟩ none 0) g m hm hidx rfl (by simp only []; omega)
  exact ⟨buildIndexResult ⟨f, n, 0⟩ none 0, out, buildIndex_ok f n hn, hcd, hdec⟩

theorem c1_roundtrip_witness :
    0 < 1 ∧
      ∃ idx out, create_delta_index ⟨fun _ => 0, 1, 0⟩ none 0 = .ok idx ∧
        create_delta (some idx) (fun _ => 0) 1 0 = .ok out ∧
        decode_delta (fun _ => 0) out =
          some (1 % 4294967296, (List.range 1).map (byteAt (fun _ => 0))) :=
  ⟨by decide, c1_roundtrip (fun _ => 0) 1 (fun _ => 0) 1 (by decide) (by decide)
    (by norm_num)⟩

end DiffDelta
